import Mathlib

/-!
Shallow embedding of `vocab_grouping.py` (Esperanto_words_4choice_quizzes),
the deterministic vocabulary-grouping and question-building pipeline, together
with proofs of the specification claims about it.

Modelling conventions:
* Python `int` is `ℤ` (or `ℕ` where the source value is a length/index),
  Python `float` difficulty levels are exact rationals `ℚ` (they are only
  parsed, compared and ordered, never rounded), and `math.floor` of the exact
  real share is expressed with `Int.fdiv` / `Int.fmod` (floor division and the
  matching remainder), which agree with the mathematical floor for every sign.
* `random.Random` is modelled as an arbitrary stream of naturals together with
  a read position; `_randbelow n` reads the next stream value modulo `n`.
  Quantifying over all streams covers every seed of the Mersenne generator.
  `random.shuffle` is the Fisher-Yates loop of CPython, `random.choice` is
  `seq[_randbelow(len(seq))]` (IndexError on an empty sequence) and
  `random.sample` is CPython's pool-copy selection loop (ValueError when the
  requested size is negative or exceeds the population).
* Fallible Python code returns `Except PyErr`.
* CPython object identity (`is`) of the distinct `VocabEntry` objects held in
  a list is modelled by tagging each element with its list position, and
  `list.index` / dataclass `==` compare the untagged field values.
-/

namespace Vocab

/-- Python exceptions that the modelled code can raise. -/
inductive PyErr where
  | valueError
  | indexError
deriving DecidableEq, Repr

/-- A `random.Random` instance: an arbitrary stream of naturals plus the read
position.  A concrete seed corresponds to a concrete stream. -/
structure Rng where
  stream : Nat → Nat
  pos : Nat

/-- Model of `Random._randbelow n`: the next stream value reduced modulo `n`. -/
def rand (r : Rng) (n : Nat) : Nat × Rng :=
  (r.stream r.pos % n, ⟨r.stream, r.pos + 1⟩)

/-- Exchange the elements at positions `i` and `j` (CPython
`x[i], x[j] = x[j], x[i]`); out-of-range positions leave the list unchanged
(they never occur in the modelled loops). -/
def listSwap {α : Type} (l : List α) (i j : Nat) : List α :=
  match l[i]?, l[j]? with
  | some xi, some xj => (l.set i xj).set j xi
  | _, _ => l

/-- Model of `random.shuffle`: CPython's Fisher-Yates loop
`for i in reversed(range(1, len(x))): j = _randbelow(i+1); swap x[i] x[j]`. -/
def pyShuffle {α : Type} (l : List α) (r : Rng) : List α × Rng :=
  ((List.range (l.length - 1)).reverse).foldl
    (fun acc i =>
      let (j, r') := rand acc.2 (i + 1 + 1)
      (listSwap acc.1 (i + 1) j, r'))
    (l, r)

/-- Model of `random.choice`: `seq[_randbelow(len(seq))]`; IndexError on an empty
sequence. -/
def pyChoice {α : Type} (l : List α) (r : Rng) : Except PyErr (α × Rng) :=
  match l with
  | [] => .error .indexError
  | a :: t =>
    let (j, r') := rand r (a :: t).length
    .ok ((a :: t).getD j a, r')

/-- One step of CPython `random.sample`'s pool-copy selection:
`j = _randbelow(n - i); result[i] = pool[j]; pool[j] = pool[n - i - 1]`.
The still-unread part of the pool is kept as an explicit list. -/
def sampleGo {α : Type} : List α → Nat → Rng → List α × Rng
  | _, 0, r => ([], r)
  | [], _ + 1, r => ([], r)
  | a :: t, k + 1, r =>
    let pool := a :: t
    let (j, r') := rand r pool.length
    let x := pool.getD j a
    let lastElem := pool.getD (pool.length - 1) a
    let pool' := (pool.set j lastElem).dropLast
    let (rest, r'') := sampleGo pool' k r'
    (x :: rest, r'')

/-- Model of `random.sample(population, k)` with a Python-int `k`: ValueError when `k`
is negative or larger than the population, otherwise the pool-copy loop. -/
def pySample {α : Type} (l : List α) (k : ℤ) (r : Rng) :
    Except PyErr (List α × Rng) :=
  if k < 0 ∨ (l.length : ℤ) < k then .error .valueError
  else .ok (sampleGo l k.toNat r)

/-- One cell of the input spreadsheet as `pandas.read_csv` hands it to the
loader: a numeric value, a non-numeric text (one that `float()` rejects; cells
whose text parses numerically are represented as `num`), or an empty cell
(pandas stores NaN). -/
inductive Cell where
  | str (s : String)
  | num (q : ℚ)
  | blank
deriving DecidableEq

/-- One raw input row with the three columns the loader reads. -/
structure RawRow where
  esperanto : Cell
  japanese : Cell
  unified_level : Cell
deriving DecidableEq

/-- Model of `str(cell)` on a pandas value.  A numeric cell renders as decimal text
(the exact format never matters to any claim) and an empty cell is NaN, whose
`str` is the three-letter string "nan". -/
def pyStr : Cell → String
  | .str s => s
  | .num q => toString q.num
  | .blank => "nan"

/-- Model of `float(cell)`: a non-numeric text raises ValueError; a numeric cell
parses; `float` of pandas NaN succeeds (the NaN payload is modelled as `0`,
no claim depends on it). -/
def pyFloat : Cell → Except PyErr ℚ
  | .str _ => .error .valueError
  | .num q => .ok q
  | .blank => .ok 0

/-- Python `str.strip()` restricted to the whitespace the inputs contain. -/
def pyStrip (s : String) : String :=
  String.mk (((s.toList.dropWhile Char.isWhitespace).reverse.dropWhile
    Char.isWhitespace).reverse)

/-- Lower-casing for the alphabet the classifier sees: ASCII letters plus the
six circumflex/breve Esperanto capitals (`str.lower()` on this fragment). -/
def esLowerChar (c : Char) : Char :=
  if 'A' ≤ c ∧ c ≤ 'Z' then Char.ofNat (c.toNat + 32)
  else if c = 'Ĉ' then 'ĉ'
  else if c = 'Ĝ' then 'ĝ'
  else if c = 'Ĥ' then 'ĥ'
  else if c = 'Ĵ' then 'ĵ'
  else if c = 'Ŝ' then 'ŝ'
  else if c = 'Ŭ' then 'ŭ'
  else c

/-- Model of `str.lower()` on the classifier's alphabet. -/
def pyLower (s : String) : String := String.mk (s.toList.map esLowerChar)

/-- Model of `s.startswith(t)` for a one-character prefix. -/
def startsWithChar (s : String) (c : Char) : Bool := s.toList.head? = some c

/-- Model of `s.endswith(t)` for a one-character suffix. -/
def endsWithChar (s : String) (c : Char) : Bool := s.toList.getLast? = some c

/-- Model of `s.endswith(t)`. -/
def pyEndsWith (s t : String) : Bool := t.toList.isSuffixOf s.toList

/-- Model of `str.isdigit()` (ASCII digits; the vocabulary is ASCII/Esperanto). -/
def pyIsDigit (s : String) : Bool := !s.toList.isEmpty && s.toList.all Char.isDigit

def PERSONAL_PRONOUNS : List String :=
  ["mi", "vi", "li", "ŝi", "ĝi", "ni", "ili", "oni", "ci"]

def PRONOUNS : List String := ["oni", "si", "mem"]

def CORRELATIVE_PREFIXES : List String := ["ki", "ti", "i", "neni", "ĉi", "ĉ"]

def CORRELATIVE_SUFFIXES : List String :=
  ["u", "o", "a", "e", "al", "am", "el", "om", "es"]

def CORRELATIVE_SPECIAL : List String := ["ĉi", "ĉiuj", "ĉiu"]

def PREPOSITIONS : List String :=
  ["al", "da", "de", "disde", "el", "ekster", "ĝis", "je", "inter", "kontraŭ",
   "kun", "laŭ", "malgraŭ", "per", "po", "por", "post", "pri", "pro", "sen",
   "sub", "super", "sur", "tra", "trans", "ĉe", "ĉirkaŭ", "antaŭ", "apud",
   "eksteren", "interne", "preter", "en", "anstataŭ", "krom", "malantaŭ"]

def CONJUNCTIONS : List String :=
  ["kaj", "aŭ", "sed", "se", "ĉar", "ke", "do", "tamen", "kvankam", "ol",
   "ĉu", "kvazaŭ", "dum", "nek", "tial"]

def BARE_ADVERBS : List String :=
  ["jes", "ne", "nun", "tre", "pli", "plej", "jen", "ja", "preskaŭ", "baldaŭ",
   "hieraŭ", "morgaŭ", "ĉiam", "neniam", "foje", "refoje", "ankoraŭ", "tuj",
   "jam", "eĉ", "apenaŭ", "for", "tie", "tie ĉi", "ĉie", "sekve", "multe",
   "iom", "iomete", "sufiĉe", "egale", "kune", "aparte", "tute", "parte",
   "rekte", "malrekte", "denove", "pli-malpli", "proksime", "malproksime",
   "bone", "malbone", "ajn", "ankaŭ", "nur", "des", "hodiaŭ", "almenaŭ",
   "adiaŭ"]

def NUMERALS : List String :=
  ["nul", "nulo", "unu", "du", "tri", "kvar", "kvin", "ses", "sep", "ok",
   "naŭ", "dek", "cent", "mil", "miliono", "miliardo", "ducent", "tricent"]

/-- The alternatives of the numeral regular expression
`^(unu|du|tri|kvar|kvin|ses|sep|ok|naŭ|dek|cent|mil)[a-zĉĝĥĵŝŭ]*$`. -/
def NUMERAL_STEMS : List String :=
  ["unu", "du", "tri", "kvar", "kvin", "ses", "sep", "ok", "naŭ", "dek",
   "cent", "mil"]

/-- The character class `[a-zĉĝĥĵŝŭ]`. -/
def esLetter (c : Char) : Bool :=
  ('a' ≤ c ∧ c ≤ 'z') ∨ c ∈ ['ĉ', 'ĝ', 'ĥ', 'ĵ', 'ŝ', 'ŭ']

/-- Model of `re.match` of the numeral pattern: the whole word is one of the stem
alternatives followed by letters of the class. -/
def numeralRegexMatch (w : String) : Bool :=
  NUMERAL_STEMS.any (fun p =>
    p.toList.isPrefixOf w.toList && (w.toList.drop p.toList.length).all esLetter)

/-- Source `strip_plural_accusative`: repeatedly strip a trailing "j" or "n". -/
def strip_plural_accusative (w : String) : String :=
  String.mk ((w.toList.reverse.dropWhile (fun c => c = 'j' ∨ c = 'n')).reverse)

/-- Source `is_correlative`: the word is the concatenation of a correlative prefix
and a correlative suffix. -/
def is_correlative (w : String) : Bool :=
  CORRELATIVE_PREFIXES.any (fun p =>
    CORRELATIVE_SUFFIXES.any (fun s => w = p ++ s))

/-- Source `classify_pos`: suffix rules plus closed exception lists, in the source's
branch order. -/
def classify_pos (word : String) : String :=
  let w := pyLower (pyStrip word)
  if w = "" then "unknown"
  else if startsWithChar w '-' && endsWithChar w '-' then "suffix"
  else if startsWithChar w '-' then "suffix"
  else if endsWithChar w '-' then "prefix"
  else if CORRELATIVE_SPECIAL.contains w || is_correlative w then "correlative"
  else if PERSONAL_PRONOUNS.contains w then "personal_pronoun"
  else if PRONOUNS.contains w then "pronoun"
  else if pyIsDigit w || NUMERALS.contains w || numeralRegexMatch w then "numeral"
  else if PREPOSITIONS.contains w then "preposition"
  else if CONJUNCTIONS.contains w then "conjunction"
  else if BARE_ADVERBS.contains w then "bare_adverb"
  else
    let base := strip_plural_accusative w
    if pyEndsWith base "e" then "adverb"
    else if ["as", "is", "os", "us", "u", "i"].any (fun e => pyEndsWith base e) then "verb"
    else if pyEndsWith base "a" then "adjective"
    else if pyEndsWith base "o" then "noun"
    else "other"

/-- Source `VocabEntry` dataclass. -/
structure VocabEntry where
  esperanto : String
  japanese : String
  unified_level : ℚ
  pos : String
  source_index : ℕ
  audio_key : Option String := none
deriving DecidableEq, Repr

/-- Source `Group` dataclass. -/
structure Group where
  id : String
  pos : String
  stages : List String
  size : ℕ
  entries : List VocabEntry
deriving DecidableEq, Repr

/-- Source `allocate_by_ratio`: distribute `total` according to the weights, giving
leftover units to the largest fractional parts first.  The Python source
floors the real share `total * w / total_weight`; that floor is exactly
`Int.fdiv (total * w) total_weight`, and the sort key `raw[i] - floors[i]`
equals `fmod (total * w[i]) W / W`, so with the one fixed denominator `W`
the stable descending comparison of the real keys is the stable descending
comparison of the integer remainders used here.  (`sorted(..., reverse=True)`
is the stable descending sort, which stable insertion sort computes.) -/
def allocate_by_ratio (total : ℤ) (weights : List ℤ) : List ℤ :=
  if total ≤ 0 then weights.map (fun _ => 0)
  else
    let total_weight := weights.sum
    let floors := weights.map (fun w => Int.fdiv (total * w) total_weight)
    let remainder := total - floors.sum
    let frac := fun i => Int.fmod (total * weights.getD i 0) total_weight
    let order := List.insertionSort (fun i j => frac j ≤ frac i)
      (List.range weights.length)
    (List.range remainder.toNat).foldl
      (fun fs k =>
        fs.set (order.getD (k % order.length) 0)
          (fs.getD (order.getD (k % order.length) 0) 0 + 1))
      floors

/-- Cut `l` into consecutive slices of the given sizes (the running-cursor
slicing shared by `even_chunks` and `split_into_groups`). -/
def chunksBySizes {α : Type} : List α → List ℕ → List (List α)
  | _, [] => []
  | l, sz :: rest => l.take sz :: chunksBySizes (l.drop sz) rest

/-- Source `even_chunks`: split into `parts` slices whose sizes differ by at most 1,
earlier slices getting the extra item. -/
def even_chunks (items : List VocabEntry) (parts : ℕ) : List (List VocabEntry) :=
  if parts = 0 then [items]
  else
    chunksBySizes items ((List.range parts).map
      (fun i => items.length / parts + if i < items.length % parts then 1 else 0))

/-- Python `min(candidates, key=f)`: the first element attaining the minimal
key. -/
def pyMinBy (f : ℕ → ℚ) (x0 : ℕ) (xs : List ℕ) : ℕ :=
  xs.foldl (fun best g => if f g < f best then g else best) x0

/-- Source `choose_group_count`: pick the group count bringing group sizes closest
to 25, among the counts keeping sizes in the 20..30 band (`math.ceil(t/30)`
is `(t+29)/30` on naturals and `math.floor(t/20)` is `t/20`). -/
def choose_group_count (total : ℕ) : ℕ :=
  if total ≤ 30 then 1
  else if 31 ≤ total ∧ total ≤ 39 then 2
  else
    let lower := (total + 29) / 30
    let upper := max lower (total / 20)
    let candidates := List.range' lower (upper + 1 - lower)
    pyMinBy (fun g => |(total : ℚ) / (g : ℚ) - 25|) (candidates.headD 1)
      candidates.tail

/-- The difficulty buckets dictionary returned by `split_by_level`. -/
structure Buckets where
  beginner : List VocabEntry
  intermediate : List VocabEntry
  advanced : List VocabEntry
deriving DecidableEq, Repr

/-- Source `split_by_level`: stable-sort by `unified_level` ascending (Python's
stable `sorted`, computed by stable insertion sort) and slice the result by
the 55/65/120 allocation. -/
def split_by_level (entries : List VocabEntry) : Buckets :=
  let sorted_entries := List.insertionSort
    (fun a b => a.unified_level ≤ b.unified_level) entries
  let counts := allocate_by_ratio (entries.length : ℤ) [55, 65, 120]
  let beginner := (counts.getD 0 0).toNat
  let intermediate := (counts.getD 1 0).toNat
  { beginner := sorted_entries.take beginner,
    intermediate := (sorted_entries.drop beginner).take intermediate,
    advanced := sorted_entries.drop (beginner + intermediate) }

/-- The label `f"{stage}_{idx}"`. -/
def sublevel_label (stage : String) (idx : ℕ) : String :=
  stage ++ "_" ++ toString idx

/-- Source `build_sublevels`: 3/3/6 equal sub-chunks per stage, empty chunks
dropped, labels numbered from 1 over all chunks of the stage. -/
def build_sublevels (buckets : Buckets) : List (List String × List VocabEntry) :=
  [("beginner", 3, buckets.beginner), ("intermediate", 3, buckets.intermediate),
   ("advanced", 6, buckets.advanced)].flatMap
    (fun stageParts =>
      ((even_chunks stageParts.2.2 stageParts.2.1).enum).filterMap
        (fun p =>
          if p.2.isEmpty then none
          else some ([sublevel_label stageParts.1 (p.1 + 1)], p.2)))

/-- The loop body of `merge_small_sublevels`: absorb the next sub-level while
the accumulator is below 20 words, emit it otherwise; at the end a still-small
accumulator is merged backward into the last emitted bucket when one exists. -/
def mergeGo (cur : List String × List VocabEntry)
    (merged : List (List String × List VocabEntry)) :
    List (List String × List VocabEntry) → List (List String × List VocabEntry)
  | [] =>
    if cur.2.length < 20 ∧ merged ≠ [] then
      merged.dropLast ++
        [((merged.getLast?.getD ([], [])).1 ++ cur.1,
          (merged.getLast?.getD ([], [])).2 ++ cur.2)]
    else merged ++ [cur]
  | lw :: rest =>
    if cur.2.length < 20 then mergeGo (cur.1 ++ lw.1, cur.2 ++ lw.2) merged rest
    else mergeGo lw (merged ++ [cur]) rest

/-- Source `merge_small_sublevels`. -/
def merge_small_sublevels (sublevels : List (List String × List VocabEntry)) :
    List (List String × List VocabEntry) :=
  match sublevels with
  | [] => []
  | first :: rest => mergeGo first [] rest

/-- The sizes list computed inside `split_into_groups` from the word count. -/
def group_sizes_of (total : ℕ) : List ℕ :=
  if total < 20 then [total]
  else if total ≤ 30 then [total]
  else if 31 ≤ total ∧ total ≤ 39 then [total / 2, total - total / 2]
  else
    let count := choose_group_count total
    (List.range count).map
      (fun i => total / count + if i < total % count then 1 else 0)

/-- The id string `f"{pos}:{'+'.join(labels)}:g{idx}"`. -/
def mkGroupId (pos : String) (labels : List String) (idx : ℕ) : String :=
  pos ++ ":" ++ String.intercalate "+" labels ++ ":g" ++ toString idx

/-- Source `split_into_groups`: seed-shuffle the words, then slice them sequentially
into the computed sizes. -/
def split_into_groups (labels : List String) (words : List VocabEntry)
    (pos : String) (r : Rng) : List Group × Rng :=
  let (shuffled, r') := pyShuffle words r
  let sizes := group_sizes_of shuffled.length
  (((chunksBySizes shuffled sizes).enum).map
    (fun p =>
      { id := mkGroupId pos labels (p.1 + 1), pos := pos, stages := labels,
        size := p.2.length, entries := p.2 }), r')

/-- The loader loop of `load_vocab` over `df.iterrows()`, carrying the row
index that becomes `source_index`. -/
def loadVocabGo (audio_key_fn : Option (String → String)) :
    List RawRow → ℕ → Except PyErr (List VocabEntry)
  | [], _ => .ok []
  | row :: rest, idx =>
    let eo := pyStrip (pyStr row.esperanto)
    let ja := pyStrip (pyStr row.japanese)
    match pyFloat row.unified_level with
    | .error e => .error e
    | .ok level =>
      match loadVocabGo audio_key_fn rest (idx + 1) with
      | .error e => .error e
      | .ok entries =>
        .ok ({ esperanto := eo, japanese := ja, unified_level := level,
               pos := classify_pos eo, source_index := idx,
               audio_key := audio_key_fn.map (fun f => f eo) } :: entries)

/-- Source `load_vocab`: one `VocabEntry` per input row, `source_index` equal to the
row position. -/
def load_vocab (rows : List RawRow)
    (audio_key_fn : Option (String → String) := none) :
    Except PyErr (List VocabEntry) :=
  loadVocabGo audio_key_fn rows 0

/-- Lookup `COMBINED_POS.get(pos, pos)`: the two pronoun-like tags collapse to
"pronoun". -/
def combined_pos (p : String) : String :=
  if p = "personal_pronoun" then "pronoun"
  else if p = "pronoun" then "pronoun"
  else p

/-- Update `by_pos.setdefault(pos_key, []).append(entry)` on an insertion-ordered
dictionary, modelled as an association list. -/
def dict_append (m : List (String × List VocabEntry)) (k : String)
    (e : VocabEntry) : List (String × List VocabEntry) :=
  if m.any (fun p => p.1 = k) then
    m.map (fun p => if p.1 = k then (p.1, p.2 ++ [e]) else p)
  else m ++ [(k, [e])]

/-- The `by_pos` dictionary of `build_groups`, in insertion order. -/
def group_by_pos (entries : List VocabEntry) : List (String × List VocabEntry) :=
  entries.foldl (fun m e => dict_append m (combined_pos e.pos) e) []

/-- Source `build_groups`: load, bucket by (combined) part of speech, stratify,
merge small sub-levels and partition, threading one shared RNG through every
bucket in iteration order.  The `Rng` argument models `random.Random(seed)`;
quantifying over it covers every seed. -/
def build_groups (rows : List RawRow) (r : Rng)
    (audio_key_fn : Option (String → String) := none) :
    Except PyErr (List Group) :=
  match load_vocab rows audio_key_fn with
  | .error e => .error e
  | .ok entries =>
    .ok ((group_by_pos entries).foldl
      (fun acc pb =>
        (merge_small_sublevels (build_sublevels (split_by_level pb.2))).foldl
          (fun acc2 lw =>
            let (gs2, r2) := split_into_groups lw.1 lw.2 pb.1 acc2.2
            (acc2.1 ++ gs2, r2))
          acc)
      (([] : List Group), r)).1

/-- One option dictionary of a generated question. -/
structure OptionDict where
  japanese : String
  esperanto : String
  audio_key : Option String
deriving DecidableEq, Repr

/-- One generated question dictionary. -/
structure QuestionDict where
  group_id : String
  pos : String
  stages : List String
  prompt : String
  answer_index : ℕ
  options : List OptionDict
deriving DecidableEq, Repr

/-- The option dictionary of one entry. -/
def mkOptionDict (e : VocabEntry) : OptionDict :=
  ⟨e.japanese, e.esperanto, e.audio_key⟩

/-- The question-assembly steps shared verbatim by `build_question` and the
loop body of `build_questions_for_group`: distractor pool by object identity
(`is not`, modelled by the position tags), `sample`, append the correct
entry, shuffle, and `options.index(correct)` by dataclass value equality. -/
def questionFor (g : Group) (max_options : ℤ)
    (tagged : List (ℕ × VocabEntry)) (correct : ℕ × VocabEntry) (r : Rng) :
    Except PyErr (QuestionDict × Rng) :=
  let pool := tagged.filter (fun p => p.1 ≠ correct.1)
  let option_size : ℤ := min (max_options - 1) (pool.length : ℤ)
  match pySample pool option_size r with
  | .error e => .error e
  | .ok (wrong, r1) =>
    let (options, r2) := pyShuffle (wrong ++ [correct]) r1
    let answer_index := options.findIdx (fun p => p.2 == correct.2)
    .ok (⟨g.id, g.pos, g.stages, correct.2.esperanto, answer_index,
          options.map (fun p => mkOptionDict p.2)⟩, r2)

/-- Source `build_question`: pick an eligible group, a correct entry in it, and
assemble one question; ValueError when no group has `min_options` entries. -/
def build_question (groups : List Group) (r : Rng)
    (min_options : ℤ := 2) (max_options : ℤ := 4) :
    Except PyErr QuestionDict :=
  let eligible := groups.filter (fun g => min_options ≤ (g.entries.length : ℤ))
  if eligible.isEmpty then .error .valueError
  else
    match pyChoice eligible r with
    | .error e => .error e
    | .ok (g, r1) =>
      match pyChoice g.entries.enum r1 with
      | .error e => .error e
      | .ok (correct, r2) =>
        match questionFor g max_options g.entries.enum correct r2 with
        | .error e => .error e
        | .ok (q, _) => .ok q

/-- The per-prompt loop of `build_questions_for_group`. -/
def buildQuestionsGo (g : Group) (max_options : ℤ)
    (tagged : List (ℕ × VocabEntry)) :
    List (ℕ × VocabEntry) → Rng → Except PyErr (List QuestionDict × Rng)
  | [], r => .ok ([], r)
  | c :: rest, r =>
    match questionFor g max_options tagged c r with
    | .error e => .error e
    | .ok (q, r1) =>
      match buildQuestionsGo g max_options tagged rest r1 with
      | .error e => .error e
      | .ok (qs, r2) => .ok (q :: qs, r2)

/-- Source `build_questions_for_group`: empty list below `min_options`, otherwise
one question per entry in a shuffled presentation order. -/
def build_questions_for_group (g : Group) (r : Rng)
    (min_options : ℤ := 2) (max_options : ℤ := 4) :
    Except PyErr (List QuestionDict) :=
  if (g.entries.length : ℤ) < min_options then .ok []
  else
    let tagged := g.entries.enum
    let (shuffled, r1) := pyShuffle tagged r
    (buildQuestionsGo g max_options tagged shuffled r1).map (fun p => p.1)

/-- Decidable equality on `Except`, so that concrete pipeline runs can be
checked by `decide`. -/
instance {ε α : Type} [DecidableEq ε] [DecidableEq α] : DecidableEq (Except ε α)
  | .ok a, .ok b =>
    match decEq a b with
    | isTrue h => isTrue (by rw [h])
    | isFalse h => isFalse (by intro hc; cases hc; exact h rfl)
  | .error a, .error b =>
    match decEq a b with
    | isTrue h => isTrue (by rw [h])
    | isFalse h => isFalse (by intro hc; cases hc; exact h rfl)
  | .ok _, .error _ => isFalse (by intro hc; cases hc)
  | .error _, .ok _ => isFalse (by intro hc; cases hc)

/-- The all-zero random stream, used to instantiate theorems at a concrete
`random.Random` source. -/
def zeroRng : Rng := ⟨fun _ => 0, 0⟩

/-- The all-one random stream, a second concrete `random.Random` source. -/
def oneRng : Rng := ⟨fun _ => 1, 0⟩

/-- The (sourceIndex, partOfSpeech, stageLabels) assignment that a groups list
gives to every entry it contains. -/
def groupTriples (gs : List Group) : List (ℕ × String × List String) :=
  gs.flatMap (fun g => g.entries.map (fun e => (e.source_index, g.pos, g.stages)))

/-- The same assignment computed from the RNG-free part of the pipeline:
which (pos, labels) bucket each loaded entry lands in before any shuffling. -/
def pipelineTriples (entries : List VocabEntry) : List (ℕ × String × List String) :=
  ((group_by_pos entries).map (fun pb =>
    (((merge_small_sublevels (build_sublevels (split_by_level pb.2))).map
      (fun lw => lw.2.map (fun e => (e.source_index, pb.1, lw.1)))).flatten))).flatten

/-- A concrete vocabulary entry used to instantiate theorems. -/
def wEntry (i : ℕ) : VocabEntry :=
  { esperanto := "hundo", japanese := "dog", unified_level := 0,
    pos := "noun", source_index := i, audio_key := none }

/-- Forty concrete entries. -/
def words40 : List VocabEntry := (List.range 40).map wEntry

/-- Concrete small sub-level bucket used to instantiate C5. -/
def bucket5 : List String × List VocabEntry :=
  (["beginner_1"], (List.range 5).map wEntry)

/-- Concrete sub-level list used to instantiate C5. -/
def subs5 : List (List String × List VocabEntry) := [bucket5]

/-- A row whose word cell is empty (pandas NaN) but whose level is numeric. -/
def missingWordRow : RawRow :=
  { esperanto := Cell.blank, japanese := Cell.str "bird",
    unified_level := Cell.num 1 }

/-- A row whose difficulty cell holds non-numeric text. -/
def badLevelRow : RawRow :=
  { esperanto := Cell.str "birdo", japanese := Cell.str "bird",
    unified_level := Cell.str "high" }

/-- The entry list that the loader produces from `missingWordRow`. -/
def nanEntryList : List VocabEntry :=
  [{ esperanto := "nan", japanese := "bird", unified_level := 1,
     pos := "adjective", source_index := 0, audio_key := none }]

/-- Two concrete rows used to instantiate the pipeline theorems. -/
def rows2 : List RawRow :=
  [⟨Cell.str "hundo", Cell.str "dog", Cell.num 1⟩,
   ⟨Cell.str "kato", Cell.str "cat", Cell.num 2⟩]

/-- Witness group for C8: two words, recorded size 2. -/
def gQ : Group := ⟨"noun-1", "noun", ["1"], 2, [wEntry 0, wEntry 1]⟩

/-- A group with no entries, exposing the IndexError path of `build_question`
when `min_options <= 0`. -/
def emptyGroup : Group := ⟨"empty", "noun", ["1"], 0, []⟩

/-- All sub-level labels `build_sublevels` can ever emit, in emission order. -/
def fixed12 : List String :=
  ["beginner_1", "beginner_2", "beginner_3",
   "intermediate_1", "intermediate_2", "intermediate_3",
   "advanced_1", "advanced_2", "advanced_3",
   "advanced_4", "advanced_5", "advanced_6"]

/-- The `(pos, stages)` key and size of a group, the data the size bound is
counted on. -/
def keySize (g : Group) : (String × List String) × ℕ := ((g.pos, g.stages), g.size)

/-- One cell per partitioner call of the `build_groups` fold: its
`(pos, labels)` key and its word count. -/
def pipelineCells (entries : List VocabEntry) :
    List ((String × List String) × ℕ) :=
  (group_by_pos entries).flatMap (fun pb =>
    (merge_small_sublevels (build_sublevels (split_by_level pb.2))).map
      (fun lw => ((pb.1, lw.1), lw.2.length)))

/-- The key-size pairs of all groups the pipeline produces, cell by cell. -/
def pipelineKeySizes (entries : List VocabEntry) :
    List ((String × List String) × ℕ) :=
  (pipelineCells entries).flatMap (fun c =>
    (group_sizes_of c.2).map (fun s => (c.1, s)))

/-- Witness rows for C3: 31 identical nouns of one level. -/
def rows31 : List RawRow :=
  List.replicate 31 ⟨Cell.str "hundo", Cell.str "inu", Cell.num 1⟩

/-!  Generic lemmas about the modelled Python runtime primitives. -/

theorem getD_mem {α : Type} (l : List α) (j : ℕ) (d : α) (hd : d ∈ l) :
    l.getD j d ∈ l := by
  rw [List.getD_eq_getElem?_getD]
  rcases h : l[j]? with _ | x
  · simpa using hd
  · obtain ⟨hlt, he⟩ := List.getElem?_eq_some.1 h
    simpa using he ▸ List.getElem_mem hlt

theorem cons_set_perm {α : Type} :
    ∀ (t : List α) (m : ℕ) (x y : α), t[m]? = some y →
      (y :: t.set m x).Perm (x :: t)
  | b :: s, 0, x, y, h => by
    simp only [List.getElem?_cons_zero, Option.some.injEq] at h
    subst h
    simpa using List.Perm.swap x b s
  | b :: s, m + 1, x, y, h => by
    simp only [List.getElem?_cons_succ] at h
    have ih := cons_set_perm s m x y h
    have h1 : (y :: (b :: s).set (m + 1) x) = y :: b :: s.set m x := by simp
    rw [h1]
    exact ((List.Perm.swap b y _).trans (ih.cons b)).trans (List.Perm.swap x b s)

theorem set_set_perm {α : Type} :
    ∀ (l : List α) (i j : ℕ) (xi xj : α), l[i]? = some xi → l[j]? = some xj →
      ((l.set i xj).set j xi).Perm l
  | [], i, _, _, _, h1, _ => by simp at h1
  | a :: t, 0, 0, xi, xj, h1, h2 => by
    simp only [List.getElem?_cons_zero, Option.some.injEq] at h1 h2
    subst h1; subst h2; simp
  | a :: t, 0, j + 1, xi, xj, h1, h2 => by
    simp only [List.getElem?_cons_zero, Option.some.injEq] at h1
    simp only [List.getElem?_cons_succ] at h2
    subst h1
    simpa using cons_set_perm t j a xj h2
  | a :: t, i + 1, 0, xi, xj, h1, h2 => by
    simp only [List.getElem?_cons_zero, Option.some.injEq] at h2
    simp only [List.getElem?_cons_succ] at h1
    subst h2
    simpa using cons_set_perm t i a xi h1
  | a :: t, i + 1, j + 1, xi, xj, h1, h2 => by
    simp only [List.getElem?_cons_succ] at h1 h2
    simpa using (set_set_perm t i j xi xj h1 h2).cons a

theorem listSwap_perm {α : Type} (l : List α) (i j : ℕ) :
    (listSwap l i j).Perm l := by
  unfold listSwap
  cases h1 : l[i]? with
  | none => cases l[j]? <;> exact List.Perm.refl l
  | some xi =>
    cases h2 : l[j]? with
    | none => exact List.Perm.refl l
    | some xj => exact set_set_perm l i j xi xj h1 h2

theorem pyShuffle_perm {α : Type} (l : List α) (r : Rng) :
    (pyShuffle l r).1.Perm l := by
  unfold pyShuffle
  generalize (List.range (l.length - 1)).reverse = idxs
  induction idxs generalizing l r with
  | nil => exact List.Perm.refl l
  | cons i rest ih =>
    simp only [List.foldl_cons]
    exact (ih (listSwap l (i + 1) (rand r (i + 1 + 1)).1) (rand r (i + 1 + 1)).2).trans
      (listSwap_perm l (i + 1) _)

theorem pyShuffle_length {α : Type} (l : List α) (r : Rng) :
    (pyShuffle l r).1.length = l.length :=
  (pyShuffle_perm l r).length_eq

theorem sampleGo_zero {α : Type} (l : List α) (r : Rng) :
    sampleGo l 0 r = ([], r) := by
  cases l <;> rfl

theorem sampleGo_cons {α : Type} (a : α) (t : List α) (k : ℕ) (r : Rng) :
    sampleGo (a :: t) (k + 1) r =
      ((a :: t).getD ((rand r (a :: t).length).1) a ::
        (sampleGo (((a :: t).set ((rand r (a :: t).length).1)
          ((a :: t).getD ((a :: t).length - 1) a)).dropLast) k
          ((rand r (a :: t).length).2)).1,
       (sampleGo (((a :: t).set ((rand r (a :: t).length).1)
          ((a :: t).getD ((a :: t).length - 1) a)).dropLast) k
          ((rand r (a :: t).length).2)).2) := rfl

theorem sampleGo_nil {α : Type} (k : ℕ) (r : Rng) :
    sampleGo ([] : List α) k r = ([], r) := by
  cases k <;> rfl

theorem sampleGo_length {α : Type} :
    ∀ (k : ℕ) (l : List α) (r : Rng), k ≤ l.length →
      (sampleGo l k r).1.length = k
  | 0, l, r, _ => by rw [sampleGo_zero]; rfl
  | k + 1, [], _, h => by simp at h
  | k + 1, a :: t, r, h => by
    rw [sampleGo_cons]
    have hlen : (((a :: t).set ((rand r (a :: t).length).1)
        ((a :: t).getD ((a :: t).length - 1) a)).dropLast).length = t.length := by
      simp
    have hk : k ≤ (((a :: t).set ((rand r (a :: t).length).1)
        ((a :: t).getD ((a :: t).length - 1) a)).dropLast).length := by
      rw [hlen]; simpa using h
    have hrec := sampleGo_length k _ ((rand r (a :: t).length).2) hk
    simp only [List.length_cons]
    exact congrArg (fun n => n + 1) hrec

theorem sampleGo_subset {α : Type} :
    ∀ (k : ℕ) (l : List α) (r : Rng), ∀ x ∈ (sampleGo l k r).1, x ∈ l
  | 0, l, r, x, hx => by rw [sampleGo_zero] at hx; simp at hx
  | k + 1, [], r, x, hx => by
    rw [sampleGo_nil] at hx; simp at hx
  | k + 1, a :: t, r, x, hx => by
    rw [sampleGo_cons] at hx
    rcases List.mem_cons.1 hx with h | h
    · subst h; exact getD_mem _ _ _ (List.mem_cons_self a t)
    · have hrec := sampleGo_subset k _ ((rand r (a :: t).length).2) x h
      have hsub := (List.dropLast_sublist _).subset hrec
      rcases List.mem_or_eq_of_mem_set hsub with h2 | h2
      · exact h2
      · subst h2; exact getD_mem _ _ _ (List.mem_cons_self a t)

theorem pyChoice_cons_ok {α : Type} (a : α) (t : List α) (r : Rng) :
    pyChoice (a :: t) r =
      .ok ((a :: t).getD ((rand r (a :: t).length).1) a, (rand r (a :: t).length).2) ∧
    (a :: t).getD ((rand r (a :: t).length).1) a ∈ a :: t :=
  ⟨rfl, getD_mem _ _ _ (List.mem_cons_self a t)⟩

theorem pySample_eq_ok {α : Type} (l : List α) (k : ℤ) (r : Rng)
    (h0 : 0 ≤ k) (hle : k ≤ (l.length : ℤ)) :
    pySample l k r = .ok (sampleGo l k.toNat r) := by
  have hcond : ¬(k < 0 ∨ (l.length : ℤ) < k) := by omega
  simp only [pySample, if_neg hcond]

/-!  Slicing, group-count selection and merging lemmas. -/

theorem chunksBySizes_flatten {α : Type} :
    ∀ (sizes : List ℕ) (l : List α),
      (chunksBySizes l sizes).flatten = l.take sizes.sum
  | [], l => by simp [chunksBySizes]
  | sz :: rest, l => by
    simp only [chunksBySizes, List.flatten_cons, List.sum_cons,
      chunksBySizes_flatten rest (l.drop sz)]
    rw [← List.take_add]

theorem chunksBySizes_length {α : Type} :
    ∀ (sizes : List ℕ) (l : List α),
      (chunksBySizes l sizes).length = sizes.length
  | [], l => rfl
  | _ :: rest, l => by
    simp [chunksBySizes, chunksBySizes_length rest]

theorem chunksBySizes_map_length {α : Type} :
    ∀ (sizes : List ℕ) (l : List α), sizes.sum ≤ l.length →
      (chunksBySizes l sizes).map List.length = sizes
  | [], l, _ => rfl
  | sz :: rest, l, h => by
    simp only [List.sum_cons] at h
    have h1 : sz ≤ l.length := by omega
    have h2 : rest.sum ≤ (l.drop sz).length := by simp; omega
    simp [chunksBySizes, chunksBySizes_map_length rest (l.drop sz) h2,
      List.length_take, Nat.min_eq_left h1]

theorem pyMinBy_mem (f : ℕ → ℚ) :
    ∀ (xs : List ℕ) (x0 : ℕ), pyMinBy f x0 xs ∈ x0 :: xs := by
  intro xs
  induction xs with
  | nil => intro x0; simp [pyMinBy]
  | cons g rest ih =>
    intro x0
    have heq : pyMinBy f x0 (g :: rest) =
        pyMinBy f (if f g < f x0 then g else x0) rest := rfl
    rw [heq]
    rcases List.mem_cons.1 (ih (if f g < f x0 then g else x0)) with h1 | h1
    · rw [h1]
      by_cases hc : f g < f x0
      · rw [if_pos hc]; exact List.mem_cons_of_mem _ (List.mem_cons_self _ _)
      · rw [if_neg hc]; exact List.mem_cons_self _ _
    · exact List.mem_cons_of_mem _ (List.mem_cons_of_mem _ h1)

theorem choose_group_count_mem (total : ℕ) (h : 40 ≤ total) :
    choose_group_count total ∈
      List.range' ((total + 29) / 30)
        (max ((total + 29) / 30) (total / 20) + 1 - (total + 29) / 30) := by
  have h30 : ¬total ≤ 30 := by omega
  have h39 : ¬(31 ≤ total ∧ total ≤ 39) := by omega
  unfold choose_group_count
  rw [if_neg h30, if_neg h39]
  cases hr : List.range' ((total + 29) / 30)
      (max ((total + 29) / 30) (total / 20) + 1 - (total + 29) / 30) with
  | nil =>
    exfalso
    have hlen := congrArg List.length hr
    simp only [List.length_range', List.length_nil] at hlen
    omega
  | cons c cs =>
    simp only [hr, List.headD_cons, List.tail_cons]
    exact pyMinBy_mem _ cs c

theorem choose_group_count_bounds (total : ℕ) (h : 40 ≤ total) :
    0 < choose_group_count total ∧ total ≤ 30 * choose_group_count total ∧
      20 * choose_group_count total ≤ total := by
  have hle : (total + 29) / 30 ≤ total / 20 := by omega
  have hmem := choose_group_count_mem total h
  rw [Nat.max_eq_right hle, List.mem_range'] at hmem
  obtain ⟨i, hi, he⟩ := hmem
  refine ⟨by omega, by omega, by omega⟩

theorem group_sizes_of_mem_large (total : ℕ) (h : 40 ≤ total) :
    ∀ s ∈ group_sizes_of total,
      20 ≤ s ∧ s ≤ 30 ∧
        (s = total / choose_group_count total ∨
         s = total / choose_group_count total + 1) := by
  obtain ⟨hpos, h30, h20⟩ := choose_group_count_bounds total h
  set g := choose_group_count total with hg
  intro s hs
  have h1 : ¬total < 20 := by omega
  have h2 : ¬total ≤ 30 := by omega
  have h3 : ¬(31 ≤ total ∧ total ≤ 39) := by omega
  unfold group_sizes_of at hs
  rw [if_neg h1, if_neg h2, if_neg h3] at hs
  simp only [← hg, List.mem_map, List.mem_range] at hs
  obtain ⟨i, _, hsv⟩ := hs
  have hdm := Nat.div_add_mod total g
  have hmlt : total % g < g := Nat.mod_lt _ hpos
  have hbase_ge : 20 ≤ total / g := (Nat.le_div_iff_mul_le hpos).2 (by omega)
  have hbase_le : total / g ≤ 30 := by
    have hd : total / g ≤ (30 * g) / g := Nat.div_le_div_right h30
    rwa [Nat.mul_div_cancel 30 hpos] at hd
  constructor
  · omega
  constructor
  · rcases Nat.lt_or_ge i (total % g) with hc | hc
    · rw [if_pos hc] at hsv
      by_contra hb
      push_neg at hb
      have hbase30 : total / g = 30 := by omega
      rw [hbase30] at hdm
      omega
    · rw [if_neg (by omega)] at hsv
      omega
  · rcases Nat.lt_or_ge i (total % g) with hc | hc
    · rw [if_pos hc] at hsv; right; omega
    · rw [if_neg (by omega)] at hsv; left; omega

theorem indicator_sum (e : ℕ) :
    ∀ p : ℕ, (((List.range p).map
      (fun i => if i < e then (1 : ℕ) else 0)).sum) = min e p := by
  intro p
  induction p with
  | zero => simp
  | succ p ih =>
    rw [List.range_succ]
    simp only [List.map_append, List.sum_append, ih]
    rcases Nat.lt_or_ge p e with h | h
    · simp [if_pos h]; omega
    · simp [if_neg (by omega : ¬p < e)]; omega

theorem group_sizes_of_sum (total : ℕ) :
    (group_sizes_of total).sum = total := by
  unfold group_sizes_of
  by_cases h1 : total < 20
  · simp [h1]
  by_cases h2 : total ≤ 30
  · simp [h1, h2]
  by_cases h3 : 31 ≤ total ∧ total ≤ 39
  · simp only [if_neg h1, if_neg h2, if_pos h3, List.sum_cons, List.sum_nil]
    omega
  · simp only [if_neg h1, if_neg h2, if_neg h3]
    have h40 : 40 ≤ total := by omega
    obtain ⟨hpos, _, _⟩ := choose_group_count_bounds total h40
    set g := choose_group_count total with hg
    have hsplit : ∀ i : ℕ,
        total / g + (if i < total % g then 1 else 0) =
        (fun i => total / g) i + (fun i => if i < total % g then (1:ℕ) else 0) i :=
      fun i => rfl
    have hdm := Nat.div_add_mod total g
    have hmlt : total % g < g := Nat.mod_lt _ hpos
    calc ((List.range g).map
          (fun i => total / g + if i < total % g then 1 else 0)).sum
        = (((List.range g).map (fun _ => total / g)).sum +
           ((List.range g).map (fun i => if i < total % g then (1:ℕ) else 0)).sum) := by
          induction (List.range g) with
          | nil => simp
          | cons a t iht => simp only [List.map_cons, List.sum_cons, iht]; omega
      _ = g * (total / g) + min (total % g) g := by
          rw [List.map_const', List.sum_replicate, smul_eq_mul, List.length_range,
            indicator_sum]
      _ = total := by omega

theorem even_chunks_flatten (items : List VocabEntry) (parts : ℕ) :
    (even_chunks items parts).flatten = items := by
  unfold even_chunks
  by_cases hp : parts = 0
  · simp [hp]
  · rw [if_neg hp]
    rw [chunksBySizes_flatten]
    have hsum : (((List.range parts).map
        (fun i => items.length / parts +
          if i < items.length % parts then 1 else 0)).sum) = items.length := by
      have hpos : 0 < parts := Nat.pos_of_ne_zero hp
      have hdm := Nat.div_add_mod items.length parts
      have hmlt : items.length % parts < parts := Nat.mod_lt _ hpos
      calc ((List.range parts).map
            (fun i => items.length / parts +
              if i < items.length % parts then 1 else 0)).sum
          = (((List.range parts).map (fun _ => items.length / parts)).sum +
             ((List.range parts).map
               (fun i => if i < items.length % parts then (1:ℕ) else 0)).sum) := by
            induction (List.range parts) with
            | nil => simp
            | cons a t iht => simp only [List.map_cons, List.sum_cons, iht]; omega
        _ = parts * (items.length / parts) + min (items.length % parts) parts := by
            rw [List.map_const', List.sum_replicate, smul_eq_mul,
              List.length_range, indicator_sum]
        _ = items.length := by omega
    rw [hsum, List.take_length]

theorem mergeGo_flatten_proj {β : Type} (pr : List String × List VocabEntry → List β)
    (hpr : ∀ a b : List String × List VocabEntry,
      pr (a.1 ++ b.1, a.2 ++ b.2) = pr a ++ pr b) :
    ∀ (rest : List (List String × List VocabEntry)) (cur) (merged),
      ((mergeGo cur merged rest).map pr).flatten =
        ((merged.map pr).flatten ++ pr cur) ++ (rest.map pr).flatten
  | [], cur, merged => by
    unfold mergeGo
    by_cases hc : cur.2.length < 20 ∧ merged ≠ []
    · rw [if_pos hc]
      obtain ⟨_, hne⟩ := hc
      have hlast : merged.getLast?.getD ([], []) = merged.getLast hne := by
        rw [List.getLast?_eq_getLast merged hne]; rfl
      rw [hlast]
      conv_rhs => rw [← List.dropLast_append_getLast hne]
      simp only [List.map_append, List.flatten_append, List.map_cons,
        List.map_nil, List.flatten_cons, List.flatten_nil, List.append_nil]
      rw [hpr (merged.getLast hne) cur]
      simp [List.append_assoc]
    · rw [if_neg hc]; simp
  | lw :: rest, cur, merged => by
    show ((mergeGo _ _ _).map pr).flatten = _
    unfold mergeGo
    by_cases hc : cur.2.length < 20
    · rw [if_pos hc, mergeGo_flatten_proj pr hpr rest]
      rw [hpr cur lw]
      simp [List.append_assoc]
    · rw [if_neg hc, mergeGo_flatten_proj pr hpr rest]
      simp [List.append_assoc]

theorem merge_small_sublevels_snd_flatten
    (subs : List (List String × List VocabEntry)) :
    ((merge_small_sublevels subs).map Prod.snd).flatten =
      (subs.map Prod.snd).flatten := by
  cases subs with
  | nil => rfl
  | cons first rest =>
    unfold merge_small_sublevels
    rw [mergeGo_flatten_proj Prod.snd (fun a b => rfl) rest first []]
    simp

theorem merge_small_sublevels_fst_flatten
    (subs : List (List String × List VocabEntry)) :
    ((merge_small_sublevels subs).map Prod.fst).flatten =
      (subs.map Prod.fst).flatten := by
  cases subs with
  | nil => rfl
  | cons first rest =>
    unfold merge_small_sublevels
    rw [mergeGo_flatten_proj Prod.fst (fun a b => rfl) rest first []]
    simp

theorem mergeGo_small_len :
    ∀ (rest : List (List String × List VocabEntry)) (cur) (merged),
      (∀ b ∈ merged, 20 ≤ b.2.length) →
      ∀ b ∈ mergeGo cur merged rest, b.2.length < 20 →
        (mergeGo cur merged rest).length = 1
  | [], cur, merged => by
    intro hmin b hb hsmall
    unfold mergeGo at hb ⊢
    by_cases hc : cur.2.length < 20 ∧ merged ≠ []
    · rw [if_pos hc] at hb
      exfalso
      rcases List.mem_append.1 hb with h | h
      · have := hmin b ((List.dropLast_sublist merged).subset h)
        omega
      · obtain ⟨hne, _⟩ : b = _ ∧ True := ⟨List.mem_singleton.1 h, trivial⟩
        subst hne
        have hlast : merged.getLast?.getD ([], []) ∈ merged := by
          rw [List.getLast?_eq_getLast merged hc.2]
          exact List.getLast_mem hc.2
        have := hmin _ hlast
        simp at hsmall
        omega
    · rw [if_neg hc] at hb
      rw [if_neg hc]
      rcases List.mem_append.1 hb with h | h
      · have := hmin b h; omega
      · have hbc : b = cur := List.mem_singleton.1 h
        subst hbc
        have hme : merged = [] := by
          by_contra hne
          exact hc ⟨hsmall, hne⟩
        rw [hme]
        rfl
  | lw :: rest, cur, merged => by
    intro hmin b hb hsmall
    show (mergeGo _ _ _).length = 1
    unfold mergeGo at hb ⊢
    by_cases hc : cur.2.length < 20
    · rw [if_pos hc] at hb ⊢
      exact mergeGo_small_len rest _ merged hmin b hb hsmall
    · rw [if_neg hc] at hb ⊢
      have hmin2 : ∀ b2 ∈ merged ++ [cur], 20 ≤ b2.2.length := by
        intro b2 hb2
        rcases List.mem_append.1 hb2 with h | h
        · exact hmin b2 h
        · rw [List.mem_singleton.1 h]; omega
      exact mergeGo_small_len rest _ _ hmin2 b hb hsmall

theorem merge_small_sublevels_small_len
    (subs : List (List String × List VocabEntry))
    (b : List String × List VocabEntry) (hb : b ∈ merge_small_sublevels subs)
    (hsmall : b.2.length < 20) : (merge_small_sublevels subs).length = 1 := by
  cases subs with
  | nil => simp [merge_small_sublevels] at hb
  | cons first rest =>
    unfold merge_small_sublevels at hb ⊢
    exact mergeGo_small_len rest first [] (by simp) b hb hsmall

theorem mergeGo_fst_ne :
    ∀ (rest : List (List String × List VocabEntry)) (cur) (merged),
      cur.1 ≠ [] → (∀ b ∈ merged, b.1 ≠ []) → (∀ lw ∈ rest, lw.1 ≠ []) →
      ∀ b ∈ mergeGo cur merged rest, b.1 ≠ []
  | [], cur, merged => by
    intro hcur hmin _ b hb
    unfold mergeGo at hb
    by_cases hc : cur.2.length < 20 ∧ merged ≠ []
    · rw [if_pos hc] at hb
      rcases List.mem_append.1 hb with h | h
      · exact hmin b ((List.dropLast_sublist merged).subset h)
      · rw [List.mem_singleton.1 h]
        intro hcontra
        rcases List.append_eq_nil.1 hcontra with ⟨_, h2⟩
        exact hcur h2
    · rw [if_neg hc] at hb
      rcases List.mem_append.1 hb with h | h
      · exact hmin b h
      · rw [List.mem_singleton.1 h]; exact hcur
  | lw :: rest, cur, merged => by
    intro hcur hmin hrest b hb
    unfold mergeGo at hb
    by_cases hc : cur.2.length < 20
    · rw [if_pos hc] at hb
      refine mergeGo_fst_ne rest _ merged ?_ hmin
        (fun x hx => hrest x (List.mem_cons_of_mem _ hx)) b hb
      intro hcontra
      rcases List.append_eq_nil.1 hcontra with ⟨h1, _⟩
      exact hcur h1
    · rw [if_neg hc] at hb
      refine mergeGo_fst_ne rest lw _
        (hrest lw (List.mem_cons_self _ _)) ?_
        (fun x hx => hrest x (List.mem_cons_of_mem _ hx)) b hb
      intro b2 hb2
      rcases List.mem_append.1 hb2 with h | h
      · exact hmin b2 h
      · rw [List.mem_singleton.1 h]; exact hcur

theorem merge_small_sublevels_fst_ne
    (subs : List (List String × List VocabEntry))
    (h : ∀ lw ∈ subs, lw.1 ≠ []) :
    ∀ b ∈ merge_small_sublevels subs, b.1 ≠ [] := by
  cases subs with
  | nil => intro b hb; simp [merge_small_sublevels] at hb
  | cons first rest =>
    unfold merge_small_sublevels
    exact mergeGo_fst_ne rest first [] (h first (List.mem_cons_self _ _))
      (by simp) (fun x hx => h x (List.mem_cons_of_mem _ hx))

/-!  Lemmas about the group partitioner. -/

theorem split_into_groups_map_size (labels : List String)
    (words : List VocabEntry) (pos : String) (r : Rng) :
    (split_into_groups labels words pos r).1.map Group.size =
      group_sizes_of words.length := by
  unfold split_into_groups
  simp only [List.map_map]
  have hlen : (pyShuffle words r).1.length = words.length := pyShuffle_length words r
  have hcomp : (Group.size ∘ fun p : ℕ × List VocabEntry =>
      ({ id := mkGroupId pos labels (p.1 + 1), pos := pos, stages := labels,
         size := p.2.length, entries := p.2 } : Group)) =
      (List.length ∘ Prod.snd) := rfl
  rw [hcomp, ← List.map_map, List.enum_map_snd, hlen]
  exact chunksBySizes_map_length _ _ (by rw [group_sizes_of_sum, hlen])

theorem split_into_groups_fields (labels : List String)
    (words : List VocabEntry) (pos : String) (r : Rng) :
    ∀ g ∈ (split_into_groups labels words pos r).1,
      g.pos = pos ∧ g.stages = labels ∧ g.size = g.entries.length := by
  intro g hg
  unfold split_into_groups at hg
  simp only [List.mem_map] at hg
  obtain ⟨p, _, he⟩ := hg
  subst he
  exact ⟨rfl, rfl, rfl⟩

theorem split_into_groups_entries_perm (labels : List String)
    (words : List VocabEntry) (pos : String) (r : Rng) :
    ((split_into_groups labels words pos r).1.flatMap Group.entries).Perm words := by
  rw [List.flatMap_def]
  unfold split_into_groups
  simp only [List.map_map]
  have hcomp : (Group.entries ∘ fun p : ℕ × List VocabEntry =>
      ({ id := mkGroupId pos labels (p.1 + 1), pos := pos, stages := labels,
         size := p.2.length, entries := p.2 } : Group)) = Prod.snd := rfl
  rw [hcomp, List.enum_map_snd, chunksBySizes_flatten, group_sizes_of_sum,
    List.take_length]
  exact pyShuffle_perm words r

theorem split_into_groups_length (labels : List String)
    (words : List VocabEntry) (pos : String) (r : Rng) :
    (split_into_groups labels words pos r).1.length =
      (group_sizes_of words.length).length := by
  have h := congrArg List.length (split_into_groups_map_size labels words pos r)
  simpa using h

/-- C4: for `total ≥ 40` the sizes produced by `split_into_groups` sum to the
total, all equal `total / g` or `total / g + 1` for the chosen group count
`g`, hence pairwise differ by at most one, and all lie in `20..30`. -/
theorem split_into_groups_adaptive_bounds (labels : List String)
    (words : List VocabEntry) (pos : String) (r : Rng)
    (h : 40 ≤ words.length) :
    ((split_into_groups labels words pos r).1.map Group.size).sum = words.length ∧
    (∀ g ∈ (split_into_groups labels words pos r).1,
        g.size = words.length / choose_group_count words.length ∨
        g.size = words.length / choose_group_count words.length + 1) ∧
    (∀ g1 ∈ (split_into_groups labels words pos r).1,
      ∀ g2 ∈ (split_into_groups labels words pos r).1, g1.size ≤ g2.size + 1) ∧
    (∀ g ∈ (split_into_groups labels words pos r).1,
        20 ≤ g.size ∧ g.size ≤ 30) := by
  have hsizes := split_into_groups_map_size labels words pos r
  have hmem : ∀ g ∈ (split_into_groups labels words pos r).1,
      g.size ∈ group_sizes_of words.length := by
    intro g hg
    rw [← hsizes]
    exact List.mem_map_of_mem Group.size hg
  have hfacts := group_sizes_of_mem_large words.length h
  refine ⟨?_, ?_, ?_, ?_⟩
  · rw [hsizes, group_sizes_of_sum]
  · intro g hg
    exact (hfacts g.size (hmem g hg)).2.2
  · intro g1 hg1 g2 hg2
    have f1 := hfacts g1.size (hmem g1 hg1)
    have f2 := hfacts g2.size (hmem g2 hg2)
    rcases f1.2.2 with h1 | h1 <;> rcases f2.2.2 with h2 | h2 <;> omega
  · intro g hg
    have f := hfacts g.size (hmem g hg)
    exact ⟨f.1, f.2.1⟩

/-- Witness for C4 at a concrete forty-word list. -/
theorem split_into_groups_adaptive_bounds_witness :
    40 ≤ words40.length ∧
    (((split_into_groups ["beginner_1"] words40 "noun" zeroRng).1.map
        Group.size).sum = words40.length ∧
      (∀ g ∈ (split_into_groups ["beginner_1"] words40 "noun" zeroRng).1,
          g.size = words40.length / choose_group_count words40.length ∨
          g.size = words40.length / choose_group_count words40.length + 1) ∧
      (∀ g1 ∈ (split_into_groups ["beginner_1"] words40 "noun" zeroRng).1,
        ∀ g2 ∈ (split_into_groups ["beginner_1"] words40 "noun" zeroRng).1,
          g1.size ≤ g2.size + 1) ∧
      (∀ g ∈ (split_into_groups ["beginner_1"] words40 "noun" zeroRng).1,
          20 ≤ g.size ∧ g.size ≤ 30)) :=
  ⟨by decide,
   split_into_groups_adaptive_bounds ["beginner_1"] words40 "noun" zeroRng
     (by decide)⟩

/-- C5: every bucket returned by `merge_small_sublevels` has at least 20
entries, except possibly when the whole output is a single bucket: a returned
bucket with fewer than 20 entries forces the output to have length one. -/
theorem merge_small_sublevels_postcondition
    (subs : List (List String × List VocabEntry))
    (b : List String × List VocabEntry) (hb : b ∈ merge_small_sublevels subs)
    (hsmall : b.2.length < 20) : (merge_small_sublevels subs).length = 1 :=
  merge_small_sublevels_small_len subs b hb hsmall

/-- Witness for C5 at a concrete small sub-level. -/
theorem merge_small_sublevels_postcondition_witness :
    (bucket5 ∈ merge_small_sublevels subs5) ∧ bucket5.2.length < 20 ∧
    (merge_small_sublevels subs5).length = 1 :=
  ⟨by decide, by decide,
   merge_small_sublevels_postcondition subs5 bucket5 (by decide) (by decide)⟩

/-!  Lemmas about the proportional allocator. -/

theorem fdiv_sum_identity (total W : ℤ) : ∀ ws : List ℤ,
    (ws.map (fun w => Int.fmod (total * w) W)).sum +
      W * (ws.map (fun w => Int.fdiv (total * w) W)).sum = total * ws.sum
  | [] => by simp
  | w :: ws => by
    have ih := fdiv_sum_identity total W ws
    have hid := Int.fmod_add_fdiv (total * w) W
    simp only [List.map_cons, List.sum_cons]
    ring_nf
    ring_nf at ih hid
    linarith

theorem nodup_getElem_not_mem_take {α : Type} (l : List α) (hnd : l.Nodup)
    (r : ℕ) (hr : r < l.length) : l[r] ∉ l.take r := by
  intro hmem
  obtain ⟨m, hm, he⟩ := List.getElem_of_mem hmem
  rw [List.getElem_take] at he
  have hml : m < l.length := by
    have := List.length_take r l
    omega
  have : m = r := (List.Nodup.getElem_inj_iff hnd).1 he
  have : m < r := by
    have := List.length_take r l
    omega
  omega

theorem incr_fold_length (order : List ℕ) :
    ∀ (r : ℕ) (floors : List ℤ),
      ((List.range r).foldl
        (fun fs k => fs.set (order.getD (k % order.length) 0)
          (fs.getD (order.getD (k % order.length) 0) 0 + 1)) floors).length =
        floors.length := by
  intro r
  induction r with
  | zero => intro floors; rfl
  | succ r ih =>
    intro floors
    rw [List.range_succ, List.foldl_append]
    simp only [List.foldl_cons, List.foldl_nil]
    rw [List.length_set, ih floors]

theorem sum_set_incr (L : List ℤ) (j : ℕ) (hj : j < L.length) :
    (L.set j (L.getD j 0 + 1)).sum = L.sum + 1 := by
  rw [List.sum_set, if_pos hj]
  have hL : L.sum = (L.take j).sum + (L[j] + (L.drop (j + 1)).sum) := by
    conv_lhs => rw [← List.take_append_drop j L]
    rw [List.sum_append, ← List.getElem_cons_drop L j hj, List.sum_cons]
  rw [List.getD_eq_getElem L 0 hj]
  omega

theorem incr_fold_sum (order : List ℕ) :
    ∀ (r : ℕ) (floors : List ℤ), r ≤ order.length →
      (∀ j ∈ order, j < floors.length) →
      ((List.range r).foldl
        (fun fs k => fs.set (order.getD (k % order.length) 0)
          (fs.getD (order.getD (k % order.length) 0) 0 + 1)) floors).sum =
        floors.sum + r := by
  intro r
  induction r with
  | zero => intro floors _ _; simp
  | succ r ih =>
    intro floors hr hmem
    rw [List.range_succ, List.foldl_append]
    have hrlt : r < order.length := by omega
    have hrm : r % order.length = r := Nat.mod_eq_of_lt hrlt
    have hjmem : order.getD r 0 ∈ order := by
      rw [List.getD_eq_getElem order 0 hrlt]
      exact List.getElem_mem hrlt
    have hjlt : order.getD r 0 <
        ((List.range r).foldl
          (fun fs k => fs.set (order.getD (k % order.length) 0)
            (fs.getD (order.getD (k % order.length) 0) 0 + 1)) floors).length := by
      rw [incr_fold_length]
      exact hmem _ hjmem
    simp only [List.foldl_cons, List.foldl_nil, hrm]
    rw [sum_set_incr _ _ hjlt, ih floors (by omega) hmem]
    omega

theorem incr_fold_getD (order : List ℕ) (hnd : order.Nodup) :
    ∀ (r : ℕ) (floors : List ℤ), r ≤ order.length →
      (∀ j ∈ order, j < floors.length) →
      ∀ i : ℕ,
      ((List.range r).foldl
        (fun fs k => fs.set (order.getD (k % order.length) 0)
          (fs.getD (order.getD (k % order.length) 0) 0 + 1)) floors).getD i 0 =
        floors.getD i 0 + (if i ∈ order.take r then 1 else 0) := by
  intro r
  induction r with
  | zero => intro floors _ _ i; simp
  | succ r ih =>
    intro floors hr hmem i
    rw [List.range_succ, List.foldl_append]
    have hrlt : r < order.length := by omega
    have hrm : r % order.length = r := Nat.mod_eq_of_lt hrlt
    have hprev := ih floors (by omega) hmem
    have hlen := incr_fold_length order r floors
    have hjr : order.getD r 0 = order[r] := List.getD_eq_getElem order 0 hrlt
    have htake : order.take (r + 1) = order.take r ++ [order[r]] := by
      rw [List.take_succ, List.getElem?_eq_getElem hrlt]
      rfl
    simp only [List.foldl_cons, List.foldl_nil, hrm]
    rw [List.getD_eq_getElem?_getD, List.getElem?_set]
    by_cases hij : order.getD r 0 = i
    · rw [if_pos hij]
      have hjlt : order.getD r 0 < floors.length := hmem _ (by
        rw [hjr]; exact List.getElem_mem hrlt)
      rw [if_pos (by rw [hlen]; omega)]
      have hnotin : i ∉ order.take r := by
        rw [← hij, hjr]
        exact nodup_getElem_not_mem_take order hnd r hrlt
      have hin : i ∈ order.take (r + 1) := by
        rw [htake]
        exact List.mem_append.2 (Or.inr (List.mem_singleton.2 (hij ▸ hjr)))
      rw [Option.getD_some, hij, hprev i, if_neg hnotin, if_pos hin]
      omega
    · rw [if_neg hij, ← List.getD_eq_getElem?_getD, hprev i]
      have hiff : i ∈ order.take (r + 1) ↔ i ∈ order.take r := by
        rw [htake, List.mem_append, List.mem_singleton]
        constructor
        · rintro (h | h)
          · exact h
          · exact absurd (hjr.trans h.symm) hij
        · exact Or.inl
      by_cases hcase : i ∈ order.take r
      · rw [if_pos hcase, if_pos (hiff.2 hcase)]
      · rw [if_neg hcase, if_neg (fun hx => hcase (hiff.1 hx))]

/-- C6: the allocator returns one non-negative integer per weight, the values
sum exactly to `total`, each value is within 1 of the exact real share
`total * w / sum(weights)`, and in particular the 100/[55, 65, 120] call of
the spec sums to 100. -/
theorem allocate_by_ratio_exact (total : ℤ) (weights : List ℤ)
    (htot : 0 ≤ total) (hne : weights ≠ []) (hpos : ∀ w ∈ weights, 0 < w) :
    ( allocate_by_ratio total weights).length = weights.length ∧
    (∀ x ∈ allocate_by_ratio total weights, 0 ≤ x) ∧
    ( allocate_by_ratio total weights).sum = total ∧
    (∀ i, i < weights.length →
      |(( ( allocate_by_ratio total weights).getD i 0 : ℤ) : ℚ) -
        (total : ℚ) * ((weights.getD i 0 : ℤ) : ℚ) /
          ((weights.sum : ℤ) : ℚ)| ≤ 1) ∧
    ( allocate_by_ratio 100 [55, 65, 120]).sum = 100 := by
  by_cases htz : total ≤ 0
  · have ht0 : total = 0 := le_antisymm htz htot
    subst ht0
    refine ⟨?_, ?_, ?_, ?_, by decide⟩
    · simp [allocate_by_ratio]
    · intro x hx
      simp [allocate_by_ratio] at hx
      omega
    · simp only [allocate_by_ratio, if_pos (le_refl (0 : ℤ))]
      induction weights with
      | nil => simp
      | cons w ws ihw => simp
    · intro i hi
      have hmap : ((weights.map (fun _ => (0:ℤ))).getD i 0) = 0 := by
        rw [List.getD_eq_getElem _ _ (by simpa using hi), List.getElem_map]
      simp only [allocate_by_ratio, if_pos (le_refl (0 : ℤ)), hmap]
      simp
  · have htpos : 0 < total := by omega
    have hW : 0 < weights.sum := List.sum_pos weights hpos hne
    have hlen_pos : 0 < weights.length := List.length_pos.2 hne
    simp only [allocate_by_ratio, if_neg htz]
    set W := weights.sum with hWdef
    set floors := weights.map (fun w => Int.fdiv (total * w) W) with hfloors
    set order := List.insertionSort
        (fun i j => Int.fmod (total * weights.getD j 0) W ≤
          Int.fmod (total * weights.getD i 0) W)
        (List.range weights.length) with horder
    have hperm : order.Perm (List.range weights.length) :=
      List.perm_insertionSort _ _
    have hond : order.Nodup := hperm.nodup_iff.2 (List.nodup_range _)
    have horder_len : order.length = weights.length := by
      rw [hperm.length_eq, List.length_range]
    have hflen : floors.length = weights.length := by
      rw [hfloors, List.length_map]
    have homem : ∀ j ∈ order, j < floors.length := by
      intro j hj
      rw [hflen]
      have : j ∈ List.range weights.length := hperm.subset hj
      simpa using this
    have hid := fdiv_sum_identity total W weights
    have hfmod_nonneg : ∀ w ∈ weights, 0 ≤ Int.fmod (total * w) W := by
      intro w hw
      exact Int.fmod_nonneg (mul_nonneg htot (le_of_lt (hpos w hw))) (le_of_lt hW)
    have hsum_fmod_nonneg :
        0 ≤ (weights.map (fun w => Int.fmod (total * w) W)).sum := by
      apply List.sum_nonneg
      intro x hx
      simp only [List.mem_map] at hx
      obtain ⟨w, hw, he⟩ := hx
      exact he ▸ hfmod_nonneg w hw
    have hsum_fmod_le :
        (weights.map (fun w => Int.fmod (total * w) W)).sum ≤
          (weights.length : ℤ) * (W - 1) := by
      have hb : ∀ x ∈ weights.map (fun w => Int.fmod (total * w) W),
          x ≤ W - 1 := by
        intro x hx
        simp only [List.mem_map] at hx
        obtain ⟨w, _, he⟩ := hx
        have := Int.fmod_lt_of_pos (total * w) hW
        omega
      have := List.sum_le_card_nsmul _ (W - 1) hb
      rwa [List.length_map, nsmul_eq_mul] at this
    have hWR : W * (total - floors.sum) =
        (weights.map (fun w => Int.fmod (total * w) W)).sum := by
      rw [hfloors]
      linarith
    have hR0 : 0 ≤ total - floors.sum := by
      have := hWR ▸ hsum_fmod_nonneg
      exact (mul_nonneg_iff_of_pos_left hW).1 this
    have hRlt : total - floors.sum < (weights.length : ℤ) := by
      have h1 : W * (total - floors.sum) < W * (weights.length : ℤ) := by
        rw [hWR]
        have h2 : (weights.length : ℤ) * (W - 1) < W * (weights.length : ℤ) := by
          have : (1 : ℤ) ≤ (weights.length : ℤ) := by exact_mod_cast hlen_pos
          nlinarith
        omega
      exact lt_of_mul_lt_mul_left h1 (le_of_lt hW)
    have hr_lt : (total - floors.sum).toNat < weights.length := by
      rw [← List.length_map weights (fun w => Int.fdiv (total * w) W), ← hfloors]
      rw [hflen]
      exact (Int.toNat_lt hR0).2 hRlt
    have hr_le : (total - floors.sum).toNat ≤ order.length := by
      rw [horder_len]; omega
    refine ⟨?_, ?_, ?_, ?_, by decide⟩
    · rw [incr_fold_length, hflen]
    · intro x hx
      have hxlen := incr_fold_length order (total - floors.sum).toNat floors
      obtain ⟨i, hilt, he⟩ := List.getElem_of_mem hx
      have hgetD := incr_fold_getD order hond (total - floors.sum).toNat floors
        hr_le homem i
      rw [List.getD_eq_getElem _ _ hilt] at hgetD
      rw [he] at hgetD
      have hiw : i < weights.length := by rw [← hflen, ← hxlen]; exact hilt
      have hfl : floors.getD i 0 = Int.fdiv (total * weights.getD i 0) W := by
        rw [hfloors, List.getD_eq_getElem _ _ (by rw [List.length_map]; exact hiw),
          List.getElem_map, List.getD_eq_getElem _ _ hiw]
      have hwmem : weights.getD i 0 ∈ weights := by
        rw [List.getD_eq_getElem _ _ hiw]
        exact List.getElem_mem hiw
      have hfd : 0 ≤ Int.fdiv (total * weights.getD i 0) W :=
        Int.fdiv_nonneg (mul_nonneg htot (le_of_lt (hpos _ hwmem))) (le_of_lt hW)
      rw [hgetD, hfl]
      by_cases hin : i ∈ order.take (total - floors.sum).toNat
      · rw [if_pos hin]; omega
      · rw [if_neg hin]; omega
    · rw [incr_fold_sum order _ floors hr_le homem,
        Int.toNat_of_nonneg hR0]
      ring
    · intro i hi
      have hxlen := incr_fold_length order (total - floors.sum).toNat floors
      have hgetD := incr_fold_getD order hond (total - floors.sum).toNat floors
        hr_le homem i
      have hfl : floors.getD i 0 = Int.fdiv (total * weights.getD i 0) W := by
        rw [hfloors, List.getD_eq_getElem _ _ (by rw [List.length_map]; exact hi),
          List.getElem_map, List.getD_eq_getElem _ _ hi]
      rw [hgetD, hfl]
      have hWQ : (0 : ℚ) < ((W : ℤ) : ℚ) := by exact_mod_cast hW
      have hWne : ((W : ℤ) : ℚ) ≠ 0 := ne_of_gt hWQ
      have hmid := Int.fmod_add_fdiv (total * weights.getD i 0) W
      have hmidQ : ((Int.fmod (total * weights.getD i 0) W : ℤ) : ℚ) +
          ((W : ℤ) : ℚ) * ((Int.fdiv (total * weights.getD i 0) W : ℤ) : ℚ) =
          (total : ℚ) * ((weights.getD i 0 : ℤ) : ℚ) := by
        exact_mod_cast hmid
      have hwmem : weights.getD i 0 ∈ weights := by
        rw [List.getD_eq_getElem _ _ hi]
        exact List.getElem_mem hi
      have hM0 : (0 : ℚ) ≤ ((Int.fmod (total * weights.getD i 0) W : ℤ) : ℚ) := by
        exact_mod_cast hfmod_nonneg _ hwmem
      have hM1 : ((Int.fmod (total * weights.getD i 0) W : ℤ) : ℚ) <
          ((W : ℤ) : ℚ) := by
        exact_mod_cast Int.fmod_lt_of_pos (total * weights.getD i 0) hW
      have hshare : (total : ℚ) * ((weights.getD i 0 : ℤ) : ℚ) /
          ((W : ℤ) : ℚ) =
          ((Int.fmod (total * weights.getD i 0) W : ℤ) : ℚ) / ((W : ℤ) : ℚ) +
          ((Int.fdiv (total * weights.getD i 0) W : ℤ) : ℚ) := by
        rw [← hmidQ]
        field_simp
        ring
      have hd0 : (0 : ℚ) ≤
          ((Int.fmod (total * weights.getD i 0) W : ℤ) : ℚ) / ((W : ℤ) : ℚ) :=
        div_nonneg hM0 (le_of_lt hWQ)
      have hd1 : ((Int.fmod (total * weights.getD i 0) W : ℤ) : ℚ) /
          ((W : ℤ) : ℚ) < 1 :=
        (div_lt_one hWQ).2 hM1
      rw [hshare]
      by_cases hin : i ∈ order.take (total - floors.sum).toNat
      · rw [if_pos hin]
        rw [abs_le]
        constructor <;> push_cast <;> linarith
      · rw [if_neg hin]
        rw [abs_le]
        constructor <;> push_cast <;> linarith

/-- Witness for C6 at the spec's concrete call. -/
theorem allocate_by_ratio_exact_witness :
    ((0 : ℤ) ≤ 100 ∧ ([55, 65, 120] : List ℤ) ≠ [] ∧
      (∀ w ∈ ([55, 65, 120] : List ℤ), 0 < w)) ∧
    (( allocate_by_ratio 100 [55, 65, 120]).length =
        ([55, 65, 120] : List ℤ).length ∧
      (∀ x ∈ allocate_by_ratio 100 [55, 65, 120], 0 ≤ x) ∧
      ( allocate_by_ratio 100 [55, 65, 120]).sum = 100 ∧
      (∀ i, i < ([55, 65, 120] : List ℤ).length →
        |(( ( allocate_by_ratio 100 [55, 65, 120]).getD i 0 : ℤ) : ℚ) -
          ((100 : ℤ) : ℚ) * ((([55, 65, 120] : List ℤ).getD i 0 : ℤ) : ℚ) /
            ((([55, 65, 120] : List ℤ).sum : ℤ) : ℚ)| ≤ 1) ∧
      ( allocate_by_ratio 100 [55, 65, 120]).sum = 100) :=
  ⟨⟨by decide, by decide, by decide⟩,
   allocate_by_ratio_exact 100 [55, 65, 120] (by decide) (by decide) (by decide)⟩

/-!  The classifier claims. -/

theorem ite_mem_of_mem {α : Type} {c : Prop} [Decidable c] {a : α} {b : α}
    {l : List α} (ha : a ∈ l) (hb : b ∈ l) : (if c then a else b) ∈ l := by
  by_cases h : c
  · rwa [if_pos h]
  · rwa [if_neg h]

/-- C9: the classifier spot checks of the spec, together with the `unknown`
fallback on empty or whitespace-only input, an `other` fallback example, and
totality into the fixed tag set. -/
theorem classify_pos_spot_checks :
    classify_pos "birdo" = "noun" ∧
    classify_pos "bela" = "adjective" ∧
    classify_pos "kuri" = "verb" ∧
    classify_pos "kuras" = "verb" ∧
    classify_pos "rapide" = "adverb" ∧
    classify_pos "kio" = "correlative" ∧
    classify_pos "kaj" = "conjunction" ∧
    classify_pos "-et-" = "suffix" ∧
    classify_pos "" = "unknown" ∧
    classify_pos "   " = "unknown" ∧
    classify_pos "zzz" = "other" ∧
    (∀ w : String, w.toList.all Char.isWhitespace = true →
      classify_pos w = "unknown") ∧
    (∀ w : String, classify_pos w ∈
      ["unknown", "suffix", "prefix", "correlative", "personal_pronoun",
       "pronoun", "numeral", "preposition", "conjunction", "bare_adverb",
       "adverb", "verb", "adjective", "noun", "other"]) := by
  refine ⟨by decide, by decide, by decide, by decide, by decide, by decide,
    by decide, by decide, by decide, by decide, by decide, ?_, ?_⟩
  · intro w hw
    have h1 : w.toList.dropWhile Char.isWhitespace = [] :=
      List.dropWhile_eq_nil_iff.2 (fun x hx => (List.all_eq_true.1 hw) x hx)
    have h2 : pyStrip w = "" := by
      unfold pyStrip
      rw [h1]
      rfl
    unfold classify_pos
    rw [h2]
    rfl
  · intro w
    simp only [classify_pos]
    repeat' apply ite_mem_of_mem (by decide)
    decide

/-- Witness for C9's whitespace clause at a concrete whitespace string. -/
theorem classify_pos_spot_checks_witness :
    ("  ".toList.all Char.isWhitespace = true) ∧ classify_pos "  " = "unknown" :=
  ⟨by decide,
   classify_pos_spot_checks.2.2.2.2.2.2.2.2.2.2.2.1 "  " (by decide)⟩

/-!  The loader claims. -/

/-- C7 counterexample: on an input containing a row that lacks the word text,
the pipeline does not fail at all — `load_vocab` and `build_groups` both
succeed, and the missing cell is silently loaded as the string "nan"
(`str()` of pandas NaN).  No `DataValidationError` is raised; none exists in
the code. -/
theorem load_vocab_missing_field_counterexample :
    (∃ es, load_vocab [missingWordRow] none = .ok es ∧
      es.map VocabEntry.esperanto = ["nan"]) ∧
    (∃ gs, build_groups [missingWordRow] zeroRng none = .ok gs ∧
      gs.length = 1) := by
  constructor
  · refine ⟨nanEntryList, by decide, by decide⟩
  · refine ⟨(build_groups [missingWordRow] zeroRng none).toOption.getD [],
      by decide, by decide⟩

theorem loadVocabGo_error (fn : Option (String → String)) :
    ∀ (rows : List RawRow) (idx : ℕ),
      ((∃ e, loadVocabGo fn rows idx = .error e) ↔
        ∃ row ∈ rows, ∃ s, row.unified_level = Cell.str s) ∧
      (∀ e, loadVocabGo fn rows idx = .error e → e = PyErr.valueError)
  | [], idx => by
    constructor
    · simp [loadVocabGo]
    · intro e he
      simp [loadVocabGo] at he
  | row :: rest, idx => by
    have ih := loadVocabGo_error fn rest (idx + 1)
    have hrestiff : (∃ r2 ∈ rest, ∃ s, r2.unified_level = Cell.str s) →
        ∃ r2 ∈ row :: rest, ∃ s, r2.unified_level = Cell.str s := by
      intro ⟨r2, hr2, hs⟩
      exact ⟨r2, List.mem_cons_of_mem _ hr2, hs⟩
    cases hcell : row.unified_level with
    | str s =>
      have heq : loadVocabGo fn (row :: rest) idx = .error PyErr.valueError := by
        conv_lhs => unfold loadVocabGo
        rw [hcell]
        rfl
      refine ⟨⟨fun _ => ⟨row, List.mem_cons_self _ _, s, hcell⟩,
        fun _ => ⟨PyErr.valueError, heq⟩⟩, ?_⟩
      intro e he
      rw [heq] at he
      cases he
      rfl
    | num q =>
      have heq : loadVocabGo fn (row :: rest) idx =
          match loadVocabGo fn rest (idx + 1) with
          | .error e => .error e
          | .ok entries =>
            .ok ({ esperanto := pyStrip (pyStr row.esperanto),
                   japanese := pyStrip (pyStr row.japanese),
                   unified_level := q,
                   pos := classify_pos (pyStrip (pyStr row.esperanto)),
                   source_index := idx,
                   audio_key := fn.map
                     (fun f => f (pyStrip (pyStr row.esperanto))) } :: entries) := by
        conv_lhs => unfold loadVocabGo
        rw [hcell]
        rfl
      constructor
      · constructor
        · intro ⟨e, he⟩
          rw [heq] at he
          cases hrec : loadVocabGo fn rest (idx + 1) with
          | error e2 =>
            exact hrestiff (ih.1.1 ⟨e2, hrec⟩)
          | ok es =>
            rw [hrec] at he
            cases he
        · intro hrow
          have hrest : ∃ r2 ∈ rest, ∃ s2, r2.unified_level = Cell.str s2 := by
            obtain ⟨r2, hr2, s2, hs2⟩ := hrow
            rcases List.mem_cons.1 hr2 with he | he
            · exfalso
              rw [he, hcell] at hs2
              cases hs2
            · exact ⟨r2, he, s2, hs2⟩
          obtain ⟨e2, he2⟩ := ih.1.2 hrest
          refine ⟨e2, ?_⟩
          rw [heq, he2]
      · intro e he
        rw [heq] at he
        cases hrec : loadVocabGo fn rest (idx + 1) with
        | error e2 =>
          rw [hrec] at he
          have he2 : e2 = e := by injection he
          exact he2 ▸ ih.2 e2 hrec
        | ok es =>
          rw [hrec] at he
          cases he
    | blank =>
      have heq : loadVocabGo fn (row :: rest) idx =
          match loadVocabGo fn rest (idx + 1) with
          | .error e => .error e
          | .ok entries =>
            .ok ({ esperanto := pyStrip (pyStr row.esperanto),
                   japanese := pyStrip (pyStr row.japanese),
                   unified_level := 0,
                   pos := classify_pos (pyStrip (pyStr row.esperanto)),
                   source_index := idx,
                   audio_key := fn.map
                     (fun f => f (pyStrip (pyStr row.esperanto))) } :: entries) := by
        conv_lhs => unfold loadVocabGo
        rw [hcell]
        rfl
      constructor
      · constructor
        · intro ⟨e, he⟩
          rw [heq] at he
          cases hrec : loadVocabGo fn rest (idx + 1) with
          | error e2 =>
            exact hrestiff (ih.1.1 ⟨e2, hrec⟩)
          | ok es =>
            rw [hrec] at he
            cases he
        · intro hrow
          have hrest : ∃ r2 ∈ rest, ∃ s2, r2.unified_level = Cell.str s2 := by
            obtain ⟨r2, hr2, s2, hs2⟩ := hrow
            rcases List.mem_cons.1 hr2 with he | he
            · exfalso
              rw [he, hcell] at hs2
              cases hs2
            · exact ⟨r2, he, s2, hs2⟩
          obtain ⟨e2, he2⟩ := ih.1.2 hrest
          refine ⟨e2, ?_⟩
          rw [heq, he2]
      · intro e he
        rw [heq] at he
        cases hrec : loadVocabGo fn rest (idx + 1) with
        | error e2 =>
          rw [hrec] at he
          have he2 : e2 = e := by injection he
          exact he2 ▸ ih.2 e2 hrec
        | ok es =>
          rw [hrec] at he
          cases he

/-- C7 amended: the loader fails exactly when some row's difficulty cell is
non-numeric text, and then with the plain `ValueError` that `float()` raises
(no `DataValidationError` exists and the offending row is not identified);
rows with a missing word or translation cell are silently kept as the string
"nan" rather than rejected. -/
theorem load_vocab_error_amended (rows : List RawRow)
    (fn : Option (String → String)) :
    ((∃ e, load_vocab rows fn = .error e) ↔
      ∃ row ∈ rows, ∃ s, row.unified_level = Cell.str s) ∧
    (∀ e, load_vocab rows fn = .error e → e = PyErr.valueError) :=
  loadVocabGo_error fn rows 0

/-- Witness for C7's amended claim at a concrete bad row. -/
theorem load_vocab_error_amended_witness :
    (load_vocab [badLevelRow] none = .error PyErr.valueError) ∧
    PyErr.valueError = PyErr.valueError :=
  ⟨by decide,
   (load_vocab_error_amended [badLevelRow] none).2 PyErr.valueError (by decide)⟩

/-!  Conservation and seed-invariance of the whole pipeline. -/

theorem loadVocabGo_ok_spec (fn : Option (String → String)) :
    ∀ (rows : List RawRow) (idx : ℕ) (entries : List VocabEntry),
      loadVocabGo fn rows idx = .ok entries →
      entries.map VocabEntry.source_index = List.range' idx rows.length
  | [], idx, entries => by
    intro h
    unfold loadVocabGo at h
    cases h
    rfl
  | row :: rest, idx, entries => by
    intro h
    unfold loadVocabGo at h
    cases hcell : pyFloat row.unified_level with
    | error e => rw [hcell] at h; cases h
    | ok level =>
      rw [hcell] at h
      cases hrec : loadVocabGo fn rest (idx + 1) with
      | error e => rw [hrec] at h; cases h
      | ok es =>
        rw [hrec] at h
        cases h
        have ih := loadVocabGo_ok_spec fn rest (idx + 1) es hrec
        simp only [List.map_cons, ih, List.length_cons]
        rw [List.range'_succ]

theorem dict_append_keys (m : List (String × List VocabEntry)) (k : String)
    (e : VocabEntry) :
    (dict_append m k e).map Prod.fst =
      if m.any (fun p => p.1 = k) then m.map Prod.fst
      else m.map Prod.fst ++ [k] := by
  unfold dict_append
  by_cases h : m.any (fun p => decide (p.1 = k))
  · rw [if_pos h, if_pos h, List.map_map]
    apply List.map_congr_left
    intro p _
    by_cases hp : p.1 = k <;> simp [hp]
  · rw [if_neg h, if_neg h]
    simp

theorem dict_append_keys_nodup (m : List (String × List VocabEntry))
    (k : String) (e : VocabEntry) (h : (m.map Prod.fst).Nodup) :
    ((dict_append m k e).map Prod.fst).Nodup := by
  rw [dict_append_keys]
  by_cases hc : m.any (fun p => decide (p.1 = k))
  · rwa [if_pos hc]
  · rw [if_neg hc]
    have hperm : (m.map Prod.fst ++ [k]).Perm (k :: m.map Prod.fst) :=
      List.perm_append_comm
    rw [hperm.nodup_iff, List.nodup_cons]
    refine ⟨?_, h⟩
    intro hk
    simp only [List.mem_map] at hk
    obtain ⟨p, hp, he⟩ := hk
    rw [List.any_eq_true] at hc
    exact hc ⟨p, hp, by simp [he]⟩

theorem dict_append_flatten_perm :
    ∀ (m : List (String × List VocabEntry)) (k : String) (e : VocabEntry),
      (m.map Prod.fst).Nodup →
      ((dict_append m k e).map Prod.snd).flatten.Perm
        ((m.map Prod.snd).flatten ++ [e])
  | [], k, e, _ => by simp [dict_append]
  | p :: t, k, e, hnd => by
    rw [List.map_cons, List.nodup_cons] at hnd
    by_cases hpk : p.1 = k
    · have hany : (p :: t).any (fun q => decide (q.1 = k)) = true := by
        simp [hpk]
      unfold dict_append
      rw [if_pos hany]
      have htail : t.map (fun q => if q.1 = k then (q.1, q.2 ++ [e]) else q) = t := by
        have : ∀ q ∈ t, (if q.1 = k then (q.1, q.2 ++ [e]) else q) = q := by
          intro q hq
          rw [if_neg ?_]
          intro hqk
          exact hnd.1 (by
            rw [← hpk] at hqk
            rw [← hqk]
            exact List.mem_map_of_mem Prod.fst hq)
        rw [List.map_congr_left this]
        simp
      rw [List.map_cons, if_pos hpk, htail]
      simp only [List.map_cons, List.flatten_cons]
      have h1 : (p.2 ++ [e]) ++ (t.map Prod.snd).flatten =
          p.2 ++ ([e] ++ (t.map Prod.snd).flatten) := by rw [List.append_assoc]
      have h2 : (p.2 ++ (t.map Prod.snd).flatten) ++ [e] =
          p.2 ++ ((t.map Prod.snd).flatten ++ [e]) := by rw [List.append_assoc]
      rw [h1, h2]
      exact List.Perm.append_left p.2 List.perm_append_comm
    · by_cases ht : t.any (fun q => decide (q.1 = k))
      · have hany : (p :: t).any (fun q => decide (q.1 = k)) = true := by
          simp only [List.any_cons, ht, Bool.or_true]
        have hstep : dict_append (p :: t) k e = p :: dict_append t k e := by
          unfold dict_append
          rw [if_pos hany, if_pos ht, List.map_cons, if_neg hpk]
        rw [hstep]
        simp only [List.map_cons, List.flatten_cons]
        have ih := dict_append_flatten_perm t k e hnd.2
        have h2 : (p.2 ++ (t.map Prod.snd).flatten) ++ [e] =
            p.2 ++ ((t.map Prod.snd).flatten ++ [e]) := by rw [List.append_assoc]
        rw [h2]
        exact List.Perm.append_left p.2 ih
      · have hany : ¬((p :: t).any (fun q => decide (q.1 = k)) = true) := by
          simp only [List.any_cons, Bool.or_eq_true, not_or]
          exact ⟨by simpa using hpk, by simpa using ht⟩
        unfold dict_append
        rw [if_neg hany]
        simp

theorem group_by_pos_spec (entries : List VocabEntry) :
    ((group_by_pos entries).map Prod.fst).Nodup ∧
    ((group_by_pos entries).map Prod.snd).flatten.Perm entries := by
  suffices h : ∀ (es : List VocabEntry) (m : List (String × List VocabEntry)),
      (m.map Prod.fst).Nodup →
      (((es.foldl (fun m2 e => dict_append m2 (combined_pos e.pos) e) m).map
        Prod.fst).Nodup ∧
       ((es.foldl (fun m2 e => dict_append m2 (combined_pos e.pos) e) m).map
        Prod.snd).flatten.Perm ((m.map Prod.snd).flatten ++ es)) by
    have h2 := h entries [] (by simp)
    unfold group_by_pos
    exact ⟨h2.1, by simpa using h2.2⟩
  intro es
  induction es with
  | nil =>
    intro m hm
    exact ⟨hm, by simp⟩
  | cons e rest ih =>
    intro m hm
    simp only [List.foldl_cons]
    obtain ⟨h1, h2⟩ := ih (dict_append m (combined_pos e.pos) e)
      (dict_append_keys_nodup _ _ _ hm)
    refine ⟨h1, h2.trans ?_⟩
    have h3 := dict_append_flatten_perm m (combined_pos e.pos) e hm
    have h4 : ((m.map Prod.snd).flatten ++ [e]) ++ rest =
        (m.map Prod.snd).flatten ++ (e :: rest) := by simp
    exact h4 ▸ h3.append_right rest

theorem split_by_level_perm (entries : List VocabEntry) :
    ((split_by_level entries).beginner ++
      ((split_by_level entries).intermediate ++
        (split_by_level entries).advanced)).Perm entries := by
  unfold split_by_level
  simp only []
  set sorted := List.insertionSort
    (fun a b => a.unified_level ≤ b.unified_level) entries with hsorted
  set b := (( allocate_by_ratio (entries.length : ℤ) [55, 65, 120]).getD 0 0).toNat
    with hb
  set i := (( allocate_by_ratio (entries.length : ℤ) [55, 65, 120]).getD 1 0).toNat
    with hi
  have hstep : sorted.take b ++ ((sorted.drop b).take i ++ sorted.drop (b + i)) =
      sorted := by
    have hdd : sorted.drop (b + i) = (sorted.drop b).drop i := by
      rw [List.drop_drop, Nat.add_comm]
    rw [hdd, List.take_append_drop, List.take_append_drop]
  rw [hstep]
  exact List.perm_insertionSort _ _

theorem filterMap_nonempty_snd_flatten (stage : String) :
    ∀ (chunks : List (List VocabEntry)) (n : ℕ),
      ((((List.enumFrom n chunks)).filterMap
        (fun p => if p.2.isEmpty then none
                  else some ([sublevel_label stage (p.1 + 1)], p.2))).map
        Prod.snd).flatten = chunks.flatten
  | [], n => rfl
  | c :: cs, n => by
    by_cases hc : c.isEmpty
    · have hcn : c = [] := List.isEmpty_iff.1 hc
      subst hcn
      have ih := filterMap_nonempty_snd_flatten stage cs (n + 1)
      simpa [List.enumFrom_cons, List.filterMap_cons] using ih
    · have hc2 : ¬(c = []) := fun h => hc (by simp [h])
      have ih := filterMap_nonempty_snd_flatten stage cs (n + 1)
      simp at ih
      simp [List.enumFrom_cons, List.filterMap_cons, hc2, ih]

theorem stage_sublevels_flatten (stage : String) (items : List VocabEntry)
    (parts : ℕ) :
    (((((even_chunks items parts)).enum).filterMap
      (fun p => if p.2.isEmpty then none
                else some ([sublevel_label stage (p.1 + 1)], p.2))).map
      Prod.snd).flatten = items := by
  rw [List.enum_eq_enumFrom, filterMap_nonempty_snd_flatten, even_chunks_flatten]

theorem build_sublevels_flatten (bs : Buckets) :
    ((build_sublevels bs).map Prod.snd).flatten =
      bs.beginner ++ (bs.intermediate ++ bs.advanced) := by
  unfold build_sublevels
  simp only [List.flatMap_cons, List.flatMap_nil, List.map_append,
    List.flatten_append, List.append_nil]
  rw [stage_sublevels_flatten, stage_sublevels_flatten, stage_sublevels_flatten]

theorem merged_of_perm (items : List VocabEntry) :
    ((merge_small_sublevels (build_sublevels (split_by_level items))).map
      Prod.snd).flatten.Perm items := by
  rw [merge_small_sublevels_snd_flatten, build_sublevels_flatten]
  exact split_by_level_perm items

theorem bucket_fold_perm {β : Type} (F : Group → List β) (pos : String)
    (t : List String × List VocabEntry → List β)
    (ht : ∀ (lw : List String × List VocabEntry) (r : Rng),
      (((split_into_groups lw.1 lw.2 pos r).1).flatMap F).Perm (t lw)) :
    ∀ (bks : List (List String × List VocabEntry)) (acc : List Group × Rng),
      ((bks.foldl (fun acc2 lw =>
          let (gs2, r2) := split_into_groups lw.1 lw.2 pos acc2.2
          (acc2.1 ++ gs2, r2)) acc).1.flatMap F).Perm
        (acc.1.flatMap F ++ (bks.map t).flatten)
  | [], acc => by simp
  | lw :: bks, acc => by
    simp only [List.foldl_cons]
    have ih := bucket_fold_perm F pos t ht bks
      (acc.1 ++ (split_into_groups lw.1 lw.2 pos acc.2).1,
       (split_into_groups lw.1 lw.2 pos acc.2).2)
    refine ih.trans ?_
    rw [List.flatMap_append]
    have hsp := ht lw acc.2
    have h4 : (acc.1.flatMap F ++ t lw) ++ (bks.map t).flatten =
        acc.1.flatMap F ++ ((lw :: bks).map t).flatten := by simp
    exact h4 ▸ (List.Perm.append_left (acc.1.flatMap F) hsp).append_right _

theorem pos_fold_perm {β : Type} (F : Group → List β)
    (U : String × List VocabEntry → List β)
    (hU : ∀ (pb : String × List VocabEntry) (acc : List Group × Rng),
      (((merge_small_sublevels (build_sublevels (split_by_level pb.2))).foldl
        (fun acc2 lw =>
          let (gs2, r2) := split_into_groups lw.1 lw.2 pb.1 acc2.2
          (acc2.1 ++ gs2, r2)) acc).1.flatMap F).Perm
        (acc.1.flatMap F ++ U pb)) :
    ∀ (pbs : List (String × List VocabEntry)) (acc : List Group × Rng),
      ((pbs.foldl (fun acc3 pb =>
          (merge_small_sublevels (build_sublevels (split_by_level pb.2))).foldl
            (fun acc2 lw =>
              let (gs2, r2) := split_into_groups lw.1 lw.2 pb.1 acc2.2
              (acc2.1 ++ gs2, r2)) acc3) acc).1.flatMap F).Perm
        (acc.1.flatMap F ++ (pbs.map U).flatten)
  | [], acc => by simp
  | pb :: pbs, acc => by
    simp only [List.foldl_cons]
    have ih := pos_fold_perm F U hU pbs
      ((merge_small_sublevels (build_sublevels (split_by_level pb.2))).foldl
        (fun acc2 lw =>
          let (gs2, r2) := split_into_groups lw.1 lw.2 pb.1 acc2.2
          (acc2.1 ++ gs2, r2)) acc)
    refine ih.trans ?_
    have hpb := hU pb acc
    have h4 : (acc.1.flatMap F ++ U pb) ++ (pbs.map U).flatten =
        acc.1.flatMap F ++ ((pb :: pbs).map U).flatten := by simp
    exact h4 ▸ hpb.append_right _

theorem bucket_fold_prop (P : Group → Prop) (pos : String)
    (hP : ∀ (labels : List String) (words : List VocabEntry) (r : Rng),
      ∀ g ∈ (split_into_groups labels words pos r).1, P g) :
    ∀ (bks : List (List String × List VocabEntry)) (acc : List Group × Rng),
      (∀ g ∈ acc.1, P g) →
      ∀ g ∈ (bks.foldl (fun acc2 lw =>
          let (gs2, r2) := split_into_groups lw.1 lw.2 pos acc2.2
          (acc2.1 ++ gs2, r2)) acc).1, P g
  | [], acc => fun hacc => hacc
  | lw :: bks, acc => by
    intro hacc
    simp only [List.foldl_cons]
    apply bucket_fold_prop P pos hP bks
    intro g hg
    rcases List.mem_append.1 hg with h | h
    · exact hacc g h
    · exact hP lw.1 lw.2 acc.2 g h

theorem pos_fold_prop (P : Group → Prop)
    (hP : ∀ (labels : List String) (words : List VocabEntry) (pos : String)
      (r : Rng), ∀ g ∈ (split_into_groups labels words pos r).1, P g) :
    ∀ (pbs : List (String × List VocabEntry)) (acc : List Group × Rng),
      (∀ g ∈ acc.1, P g) →
      ∀ g ∈ (pbs.foldl (fun acc3 pb =>
          (merge_small_sublevels (build_sublevels (split_by_level pb.2))).foldl
            (fun acc2 lw =>
              let (gs2, r2) := split_into_groups lw.1 lw.2 pb.1 acc2.2
              (acc2.1 ++ gs2, r2)) acc3) acc).1, P g
  | [], acc => fun hacc => hacc
  | pb :: pbs, acc => by
    intro hacc
    simp only [List.foldl_cons]
    apply pos_fold_prop P hP pbs
    exact bucket_fold_prop P pb.1 (fun labels words r => hP labels words pb.1 r)
      _ acc hacc

theorem build_groups_fold_of_ok (rows : List RawRow) (r : Rng)
    (fn : Option (String → String)) (gs : List Group)
    (entries : List VocabEntry)
    (hload : load_vocab rows fn = .ok entries)
    (h : build_groups rows r fn = .ok gs) :
    gs = ((group_by_pos entries).foldl
      (fun acc3 pb =>
        (merge_small_sublevels (build_sublevels (split_by_level pb.2))).foldl
          (fun acc2 lw =>
            let (gs2, r2) := split_into_groups lw.1 lw.2 pb.1 acc2.2
            (acc2.1 ++ gs2, r2)) acc3)
      (([] : List Group), r)).1 := by
  unfold build_groups at h
  rw [hload] at h
  injection h with h
  exact h.symm

theorem split_into_groups_triples_perm (labels : List String)
    (words : List VocabEntry) (pos : String) (r : Rng) :
    ((split_into_groups labels words pos r).1.flatMap
      (fun g => g.entries.map (fun e => (e.source_index, g.pos, g.stages)))).Perm
      (words.map (fun e => (e.source_index, pos, labels))) := by
  have hfields := split_into_groups_fields labels words pos r
  have hent := split_into_groups_entries_perm labels words pos r
  have heq : ∀ (gs : List Group),
      (∀ g ∈ gs, g.pos = pos ∧ g.stages = labels ∧ g.size = g.entries.length) →
      gs.flatMap (fun g => g.entries.map
        (fun e => (e.source_index, g.pos, g.stages))) =
      (gs.flatMap Group.entries).map
        (fun e => (e.source_index, pos, labels)) := by
    intro gs
    induction gs with
    | nil => intro _; rfl
    | cons g t ih =>
      intro hf
      have hg := hf g (List.mem_cons_self _ _)
      simp only [List.flatMap_cons, List.map_append]
      rw [ih (fun g2 hg2 => hf g2 (List.mem_cons_of_mem _ hg2)), hg.1, hg.2.1]
  rw [heq _ hfields]
  exact hent.map _

set_option maxHeartbeats 1600000 in
theorem build_groups_triples_perm (rows : List RawRow) (r : Rng)
    (fn : Option (String → String)) (gs : List Group)
    (entries : List VocabEntry)
    (hload : load_vocab rows fn = .ok entries)
    (h : build_groups rows r fn = .ok gs) :
    (groupTriples gs).Perm (pipelineTriples entries) := by
  rw [build_groups_fold_of_ok rows r fn gs entries hload h]
  have hU : ∀ (pb : String × List VocabEntry) (acc : List Group × Rng),
      (((merge_small_sublevels (build_sublevels (split_by_level pb.2))).foldl
        (fun acc2 lw =>
          let (gs2, r2) := split_into_groups lw.1 lw.2 pb.1 acc2.2
          (acc2.1 ++ gs2, r2)) acc).1.flatMap
        (fun g => g.entries.map
          (fun e => (e.source_index, g.pos, g.stages)))).Perm
      (acc.1.flatMap (fun g => g.entries.map
          (fun e => (e.source_index, g.pos, g.stages))) ++
        (((merge_small_sublevels (build_sublevels (split_by_level pb.2))).map
          (fun lw => lw.2.map
            (fun e => (e.source_index, pb.1, lw.1)))).flatten)) := by
    intro pb acc
    exact bucket_fold_perm _ pb.1
      (fun lw => lw.2.map (fun e => (e.source_index, pb.1, lw.1)))
      (fun lw r2 => split_into_groups_triples_perm lw.1 lw.2 pb.1 r2)
      _ acc
  have hmain := pos_fold_perm
    (fun g => g.entries.map (fun e => (e.source_index, g.pos, g.stages)))
    (fun pb => (((merge_small_sublevels
        (build_sublevels (split_by_level pb.2))).map
      (fun lw => lw.2.map (fun e => (e.source_index, pb.1, lw.1)))).flatten))
    hU (group_by_pos entries) (([] : List Group), r)
  rw [show ((([] : List Group), r)).1 = ([] : List Group) from rfl,
    List.flatMap_nil, List.nil_append] at hmain
  unfold groupTriples pipelineTriples
  exact hmain

/-- C1: the groups returned by `build_groups` partition the input exactly —
the sizes sum to the number of input rows and the `source_index` values
across all groups are exactly `0, ..., n-1`, each exactly once. -/
theorem build_groups_conservation (rows : List RawRow) (r : Rng)
    (fn : Option (String → String)) (gs : List Group)
    (h : build_groups rows r fn = .ok gs) :
    (gs.map Group.size).sum = rows.length ∧
    (gs.flatMap (fun g => g.entries.map VocabEntry.source_index)).Perm
      (List.range rows.length) := by
  cases hload : load_vocab rows fn with
  | error e =>
    exfalso
    unfold build_groups at h
    rw [hload] at h
    cases h
  | ok entries =>
    have hgs := build_groups_fold_of_ok rows r fn gs entries hload h
    have hsrc : entries.map VocabEntry.source_index =
        List.range' 0 rows.length := loadVocabGo_ok_spec fn rows 0 entries hload
    have hentlen : entries.length = rows.length := by
      have := congrArg List.length hsrc
      simpa using this
    have hU : ∀ (pb : String × List VocabEntry) (acc : List Group × Rng),
        (((merge_small_sublevels (build_sublevels (split_by_level pb.2))).foldl
          (fun acc2 lw =>
            let (gs2, r2) := split_into_groups lw.1 lw.2 pb.1 acc2.2
            (acc2.1 ++ gs2, r2)) acc).1.flatMap Group.entries).Perm
        (acc.1.flatMap Group.entries ++ pb.2) := by
      intro pb acc
      have hb := bucket_fold_perm Group.entries pb.1 (fun lw => lw.2)
        (fun lw r2 => split_into_groups_entries_perm lw.1 lw.2 pb.1 r2)
        (merge_small_sublevels (build_sublevels (split_by_level pb.2))) acc
      refine hb.trans (List.Perm.append_left _ ?_)
      exact merged_of_perm pb.2
    have hmain := pos_fold_perm Group.entries (fun pb => pb.2) hU
      (group_by_pos entries) (([] : List Group), r)
    have hentperm : (gs.flatMap Group.entries).Perm entries := by
      rw [hgs]
      refine hmain.trans ?_
      have hflat := (group_by_pos_spec entries).2
      simpa using hflat
    constructor
    · have hprop : ∀ g ∈ gs, g.size = g.entries.length := by
        rw [hgs]
        exact pos_fold_prop (fun g => g.size = g.entries.length)
          (fun labels words pos r2 g hg =>
            (split_into_groups_fields labels words pos r2 g hg).2.2)
          (group_by_pos entries) (([] : List Group), r) (by simp)
      have hmeq : gs.map Group.size = gs.map (fun g => g.entries.length) :=
        List.map_congr_left (fun g hg => hprop g hg)
      rw [hmeq, ← hentlen, ← hentperm.length_eq]
      rw [List.flatMap_def, List.length_flatten, List.map_map]
      rfl
    · have hmapped := hentperm.map VocabEntry.source_index
      rw [hsrc, ← List.range_eq_range'] at hmapped
      have hflatmap : ∀ gl : List Group,
          gl.flatMap (fun g => g.entries.map VocabEntry.source_index) =
          (gl.flatMap Group.entries).map VocabEntry.source_index := by
        intro gl
        induction gl with
        | nil => rfl
        | cons g t ih => simp only [List.flatMap_cons, List.map_append, ih]
      rw [hflatmap gs]
      exact hmapped

/-- Witness for C1 at a concrete two-row input. -/
theorem build_groups_conservation_witness :
    (build_groups rows2 zeroRng none =
      .ok ((build_groups rows2 zeroRng none).toOption.getD [])) ∧
    ((((build_groups rows2 zeroRng none).toOption.getD []).map Group.size).sum =
      rows2.length ∧
    ((((build_groups rows2 zeroRng none).toOption.getD []).flatMap
        (fun g => g.entries.map VocabEntry.source_index)).Perm
      (List.range rows2.length))) :=
  ⟨by decide,
   build_groups_conservation rows2 zeroRng none
     ((build_groups rows2 zeroRng none).toOption.getD []) (by decide)⟩

/-- C2: the (sourceIndex, partOfSpeech, stageLabels) assignment computed by
`build_groups` is the same multiset for every seed: only the split into
groups and the order within groups can differ between two runs. -/
theorem build_groups_seed_invariant_assignment (rows : List RawRow)
    (fn : Option (String → String)) (r1 r2 : Rng) (gs1 gs2 : List Group)
    (h1 : build_groups rows r1 fn = .ok gs1)
    (h2 : build_groups rows r2 fn = .ok gs2) :
    (groupTriples gs1).Perm (groupTriples gs2) := by
  cases hload : load_vocab rows fn with
  | error e =>
    exfalso
    unfold build_groups at h1
    rw [hload] at h1
    cases h1
  | ok entries =>
    exact (build_groups_triples_perm rows r1 fn gs1 entries hload h1).trans
      (build_groups_triples_perm rows r2 fn gs2 entries hload h2).symm

/-- Witness for C2 at a concrete two-row input and two concrete streams. -/
theorem build_groups_seed_invariant_assignment_witness :
    (build_groups rows2 zeroRng none =
      .ok ((build_groups rows2 zeroRng none).toOption.getD [])) ∧
    (build_groups rows2 oneRng none =
      .ok ((build_groups rows2 oneRng none).toOption.getD [])) ∧
    (groupTriples ((build_groups rows2 zeroRng none).toOption.getD [])).Perm
      (groupTriples ((build_groups rows2 oneRng none).toOption.getD [])) :=
  ⟨by decide, by decide,
   build_groups_seed_invariant_assignment rows2 none zeroRng oneRng
     ((build_groups rows2 zeroRng none).toOption.getD [])
     ((build_groups rows2 oneRng none).toOption.getD [])
     (by decide) (by decide)⟩

/-!  Question-builder lemmas (C8, C10). -/

theorem filter_tag_length (l : List (ℕ × VocabEntry)) (c : ℕ × VocabEntry)
    (hnd : (l.map Prod.fst).Nodup) (hc : c ∈ l) :
    (l.filter (fun p => p.1 ≠ c.1)).length + 1 = l.length := by
  induction l with
  | nil => simp at hc
  | cons a t ih =>
    simp only [List.map_cons, List.nodup_cons] at hnd
    rcases List.mem_cons.1 hc with h | h
    · have hfilter : t.filter (fun p => p.1 ≠ c.1) = t := by
        rw [List.filter_eq_self]
        intro p hp
        simp only [ne_eq, decide_eq_true_eq]
        intro heq
        exact hnd.1 (h ▸ heq ▸ List.mem_map_of_mem Prod.fst hp)
      rw [List.filter_cons, if_neg (by simp [h])]
      rw [hfilter]
      simp
    · have hane : a.1 ≠ c.1 := by
        intro heq
        exact hnd.1 (heq ▸ List.mem_map_of_mem Prod.fst h)
      rw [List.filter_cons, if_pos (by simpa using hane)]
      simp only [List.length_cons]
      have := ih hnd.2 h
      omega

theorem questionFor_spec (g : Group) (tagged : List (ℕ × VocabEntry))
    (hnd : (tagged.map Prod.fst).Nodup) (correct : ℕ × VocabEntry)
    (hc : correct ∈ tagged) (r : Rng) :
    ∃ q r2, questionFor g 4 tagged correct r = .ok (q, r2) ∧
      q.prompt = correct.2.esperanto ∧
      q.options.length = min 4 tagged.length ∧
      q.answer_index < q.options.length ∧
      ∀ d, (q.options.getD q.answer_index d).esperanto = q.prompt := by
  have hpoolLen := filter_tag_length tagged correct hnd hc
  set pool := tagged.filter (fun p => p.1 ≠ correct.1) with hpool
  set os : ℤ := min ((4:ℤ) - 1) (pool.length : ℤ) with hos
  have h0 : (0:ℤ) ≤ os := le_min (by norm_num) (Int.natCast_nonneg _)
  have hle : os ≤ (pool.length : ℤ) := min_le_right _ _
  have hsample := pySample_eq_ok pool os r h0 hle
  have htoNat : os.toNat = min 3 pool.length := by
    rw [hos]; omega
  have hwlen : (sampleGo pool os.toNat r).1.length = os.toNat :=
    sampleGo_length os.toNat pool r (by omega)
  set wrongP := sampleGo pool os.toNat r with hwrongP
  set optP := pyShuffle (wrongP.1 ++ [correct]) wrongP.2 with hoptP
  have hoptlen : optP.1.length = os.toNat + 1 := by
    rw [hoptP, pyShuffle_length]
    simp [hwlen]
  have hperm : optP.1.Perm (wrongP.1 ++ [correct]) := pyShuffle_perm _ _
  have hcmem : correct ∈ optP.1 := hperm.mem_iff.2 (by simp)
  have hfind := List.findIdx_lt_length_of_exists
    (p := fun p => p.2 == correct.2) ⟨correct, hcmem, by simp⟩
  refine ⟨⟨g.id, g.pos, g.stages, correct.2.esperanto,
      optP.1.findIdx (fun p => p.2 == correct.2),
      optP.1.map (fun p => mkOptionDict p.2)⟩, optP.2, ?_, rfl, ?_, ?_, ?_⟩
  · simp only [questionFor]
    rw [← hpool, ← hos, hsample]
  · show (optP.1.map (fun p => mkOptionDict p.2)).length = min 4 tagged.length
    rw [List.length_map, hoptlen, htoNat]
    omega
  · show optP.1.findIdx (fun p => p.2 == correct.2) <
      (optP.1.map (fun p => mkOptionDict p.2)).length
    rw [List.length_map]
    exact hfind
  · intro d
    show ((optP.1.map (fun p => mkOptionDict p.2)).getD
        (optP.1.findIdx (fun p => p.2 == correct.2)) d).esperanto =
      correct.2.esperanto
    have hlt : optP.1.findIdx (fun p => p.2 == correct.2) <
        (optP.1.map (fun p => mkOptionDict p.2)).length := by
      rw [List.length_map]; exact hfind
    rw [List.getD_eq_getElem _ _ hlt, List.getElem_map]
    have hpred : (optP.1[optP.1.findIdx (fun p => p.2 == correct.2)].2 ==
        correct.2) = true := List.findIdx_getElem (w := hfind)
    rw [beq_iff_eq] at hpred
    rw [hpred]
    rfl

theorem buildQuestionsGo_spec (g : Group) (tagged : List (ℕ × VocabEntry))
    (hnd : (tagged.map Prod.fst).Nodup) :
    ∀ (cs : List (ℕ × VocabEntry)), (∀ c ∈ cs, c ∈ tagged) → ∀ r : Rng,
    ∃ qs r2, buildQuestionsGo g 4 tagged cs r = .ok (qs, r2) ∧
      qs.map QuestionDict.prompt = cs.map (fun c => c.2.esperanto) ∧
      ∀ q ∈ qs, q.options.length = min 4 tagged.length ∧
        q.answer_index < q.options.length ∧
        ∀ d, (q.options.getD q.answer_index d).esperanto = q.prompt := by
  intro cs
  induction cs with
  | nil =>
    intro _ r
    exact ⟨[], r, rfl, rfl, by simp⟩
  | cons c rest ih =>
    intro hmem r
    obtain ⟨q, r1, hq, hp1, hl1, hi1, hd1⟩ :=
      questionFor_spec g tagged hnd c (hmem c (List.mem_cons_self c rest)) r
    obtain ⟨qs, r2, hqs, hmap, hall⟩ :=
      ih (fun x hx => hmem x (List.mem_cons_of_mem c hx)) r1
    refine ⟨q :: qs, r2, ?_, ?_, ?_⟩
    · show buildQuestionsGo g 4 tagged (c :: rest) r = .ok (q :: qs, r2)
      simp only [buildQuestionsGo, hq, hqs]
    · simp [hmap, hp1]
    · intro q2 hq2
      rcases List.mem_cons.1 hq2 with h | h
      · exact h ▸ ⟨hl1, hi1, hd1⟩
      · exact hall q2 h

/-- C8: for every group whose recorded size matches its entry count and is at
least 2, and every random stream, `build_questions_for_group` with
`min_options = 2`, `max_options = 4` succeeds with exactly `size` questions,
the prompts are exactly the group's words (each entry prompts exactly one
question), every options list has length `min 4 size`, and the option at
`answer_index` carries the prompt's text. -/
theorem build_questions_for_group_coverage (g : Group) (r : Rng)
    (h2 : 2 ≤ g.entries.length) (hsize : g.size = g.entries.length) :
    ∃ qs, build_questions_for_group g r 2 4 = .ok qs ∧
      qs.length = g.size ∧
      (qs.map QuestionDict.prompt).Perm (g.entries.map VocabEntry.esperanto) ∧
      ∀ q ∈ qs, q.options.length = min 4 g.size ∧
        q.answer_index < q.options.length ∧
        ∀ d, (q.options.getD q.answer_index d).esperanto = q.prompt := by
  have hnd : (g.entries.enum.map Prod.fst).Nodup := by
    rw [List.enum_map_fst]; exact List.nodup_range _
  set tagged := g.entries.enum with htag
  set shuffled := pyShuffle tagged r with hsh
  have hmem : ∀ c ∈ shuffled.1, c ∈ tagged :=
    fun c hc => (pyShuffle_perm tagged r).subset hc
  obtain ⟨qs, r2, hrun, hmap, hall⟩ :=
    buildQuestionsGo_spec g tagged hnd shuffled.1 hmem shuffled.2
  have htlen : tagged.length = g.size := by
    rw [htag, List.enum_length, hsize]
  refine ⟨qs, ?_, ?_, ?_, ?_⟩
  · show build_questions_for_group g r 2 4 = .ok qs
    simp only [build_questions_for_group]
    rw [if_neg (by omega), ← htag, ← hsh, hrun]
    rfl
  · have hql := congrArg List.length hmap
    simp only [List.length_map] at hql
    rw [hql, hsh, pyShuffle_length, htlen]
  · rw [hmap]
    have hp := (pyShuffle_perm tagged r).map (fun c : ℕ × VocabEntry => c.2.esperanto)
    refine ((hsh ▸ hp : (shuffled.1.map (fun c : ℕ × VocabEntry => c.2.esperanto)).Perm
      (tagged.map (fun c : ℕ × VocabEntry => c.2.esperanto)))).trans ?_
    rw [htag]
    have hcomp : g.entries.enum.map (fun c : ℕ × VocabEntry => c.2.esperanto) =
        g.entries.map VocabEntry.esperanto := by
      rw [show (fun c : ℕ × VocabEntry => c.2.esperanto) =
        VocabEntry.esperanto ∘ Prod.snd from rfl, ← List.map_map, List.enum_map_snd]
    rw [hcomp]
  · intro q hq
    have := hall q hq
    rwa [htlen] at this

/-- Witness for C8 at a concrete two-word group and the zero stream. -/
theorem build_questions_for_group_coverage_witness :
    2 ≤ gQ.entries.length ∧ gQ.size = gQ.entries.length ∧
    (∃ qs, build_questions_for_group gQ zeroRng 2 4 = .ok qs ∧
      qs.length = gQ.size ∧
      (qs.map QuestionDict.prompt).Perm (gQ.entries.map VocabEntry.esperanto) ∧
      ∀ q ∈ qs, q.options.length = min 4 gQ.size ∧
        q.answer_index < q.options.length ∧
        ∀ d, (q.options.getD q.answer_index d).esperanto = q.prompt) :=
  ⟨by decide, by decide,
    build_questions_for_group_coverage gQ zeroRng (by decide) (by decide)⟩

theorem questionFor_ok (g : Group) (mo : ℤ) (hmo : 1 ≤ mo)
    (tagged : List (ℕ × VocabEntry)) (correct : ℕ × VocabEntry)
    (hc : correct ∈ tagged) (r : Rng) :
    ∃ q r2, questionFor g mo tagged correct r = .ok (q, r2) ∧
      q.group_id = g.id ∧
      q.prompt = correct.2.esperanto ∧
      ∀ o ∈ q.options, ∃ p ∈ tagged, o = mkOptionDict p.2 := by
  set pool := tagged.filter (fun p => p.1 ≠ correct.1) with hpool
  set os : ℤ := min (mo - 1) (pool.length : ℤ) with hos
  have h0 : (0:ℤ) ≤ os := le_min (by omega) (Int.natCast_nonneg _)
  have hle : os ≤ (pool.length : ℤ) := min_le_right _ _
  have hsample := pySample_eq_ok pool os r h0 hle
  set wrongP := sampleGo pool os.toNat r with hwrongP
  set optP := pyShuffle (wrongP.1 ++ [correct]) wrongP.2 with hoptP
  refine ⟨⟨g.id, g.pos, g.stages, correct.2.esperanto,
      optP.1.findIdx (fun p => p.2 == correct.2),
      optP.1.map (fun p => mkOptionDict p.2)⟩, optP.2, ?_, rfl, rfl, ?_⟩
  · simp only [questionFor]
    rw [← hpool, ← hos, hsample]
  · intro o ho
    show ∃ p ∈ tagged, o = mkOptionDict p.2
    obtain ⟨p, hp, hpe⟩ := List.mem_map.1 ho
    refine ⟨p, ?_, hpe.symm⟩
    have hperm : optP.1.Perm (wrongP.1 ++ [correct]) := pyShuffle_perm _ _
    rcases List.mem_append.1 (hperm.subset hp) with h | h
    · exact List.mem_of_mem_filter (sampleGo_subset os.toNat pool r p h)
    · simp only [List.mem_singleton] at h
      exact h ▸ hc

theorem build_question_run (groups : List Group) (r : Rng) (mi mo : ℤ)
    (g0 : Group) (rest : List Group) (gch : Group) (r1 : Rng)
    (cor : ℕ × VocabEntry) (r2 : Rng) (q : QuestionDict) (r3 : Rng)
    (he : groups.filter (fun g => mi ≤ (g.entries.length : ℤ)) = g0 :: rest)
    (h1 : pyChoice (g0 :: rest) r = .ok (gch, r1))
    (h2 : pyChoice gch.entries.enum r1 = .ok (cor, r2))
    (h3 : questionFor gch mo gch.entries.enum cor r2 = .ok (q, r3)) :
    build_question groups r mi mo = .ok q := by
  simp only [build_question, he]
  rw [if_neg (show ¬((g0 :: rest).isEmpty = true) by simp)]
  simp only [h1, h2, h3]

/-- C10 counterexample: a group with no entries and `min_options = 0`.  The
eligible filter keeps the empty group, so no ValueError is raised; instead
`rng.choice(group.entries)` on the empty entry list raises IndexError, refuting
the claim that `build_question` returns a question without raising whenever
some group meets the `min_options` threshold. -/
theorem build_question_counterexample :
    (0 : ℤ) ≤ ((emptyGroup.entries.length : ℤ)) ∧
    build_question [emptyGroup] zeroRng 0 4 = .error .indexError := by
  decide

/-- C10 amended: with the default-shaped arguments `1 <= min_options` and
`1 <= max_options`, `build_question` raises ValueError exactly when no group
has at least `min_options` entries, and otherwise returns a question whose
`group_id`, prompt and options all come from one single eligible group. -/
theorem build_question_amended (groups : List Group) (r : Rng)
    (mi mo : ℤ) (hmi : 1 ≤ mi) (hmo : 1 ≤ mo) :
    (build_question groups r mi mo = .error .valueError ↔
      ∀ g ∈ groups, (g.entries.length : ℤ) < mi) ∧
    ((∃ g ∈ groups, mi ≤ (g.entries.length : ℤ)) →
      ∃ q, build_question groups r mi mo = .ok q ∧
        ∃ g ∈ groups, mi ≤ (g.entries.length : ℤ) ∧
          q.group_id = g.id ∧
          q.prompt ∈ g.entries.map VocabEntry.esperanto ∧
          ∀ o ∈ q.options, o ∈ g.entries.map mkOptionDict) := by
  rcases he : groups.filter (fun g => mi ≤ (g.entries.length : ℤ)) with _ | ⟨g0, rest⟩
  · have hrun : build_question groups r mi mo = .error .valueError := by
      simp only [build_question, he]
      rfl
    have hall : ∀ g ∈ groups, (g.entries.length : ℤ) < mi := by
      intro g hg
      by_contra hnot
      have hmem : g ∈ groups.filter (fun g => mi ≤ (g.entries.length : ℤ)) :=
        List.mem_filter.2 ⟨hg, decide_eq_true (not_lt.1 hnot)⟩
      rw [he] at hmem
      simp at hmem
    refine ⟨⟨fun _ => hall, fun _ => hrun⟩, ?_⟩
    rintro ⟨g1, hg1, hge⟩
    exact absurd (hall g1 hg1) (not_lt.2 hge)
  · obtain ⟨hch, hchmem⟩ := pyChoice_cons_ok g0 rest r
    set gch := (g0 :: rest).getD ((rand r (g0 :: rest).length).1) g0 with hgch
    set r1 := (rand r (g0 :: rest).length).2 with hr1
    have hgchmem : gch ∈ groups.filter (fun g => mi ≤ (g.entries.length : ℤ)) := by
      rw [he]; exact hchmem
    have hgchG : gch ∈ groups := (List.mem_filter.1 hgchmem).1
    have hgchLen : mi ≤ (gch.entries.length : ℤ) :=
      of_decide_eq_true (List.mem_filter.1 hgchmem).2
    rcases htag : gch.entries.enum with _ | ⟨c0, crest⟩
    · exfalso
      rw [List.enum_eq_nil] at htag
      rw [htag] at hgchLen
      simp at hgchLen
      omega
    · obtain ⟨hch2, hc2mem⟩ := pyChoice_cons_ok c0 crest r1
      set cor := (c0 :: crest).getD ((rand r1 (c0 :: crest).length).1) c0 with hcor
      set r2 := (rand r1 (c0 :: crest).length).2 with hr2
      have h2 : pyChoice gch.entries.enum r1 = .ok (cor, r2) := by
        rw [htag]; exact hch2
      have hcmem : cor ∈ gch.entries.enum := by
        rw [htag]; exact hc2mem
      obtain ⟨q, r3, h3, hid, hprompt, hopts⟩ :=
        questionFor_ok gch mo hmo gch.entries.enum cor hcmem r2
      have hrun := build_question_run groups r mi mo g0 rest gch r1 cor r2 q r3
        he hch h2 h3
      have hc2 : cor.2 ∈ gch.entries := by
        have := List.mem_map_of_mem Prod.snd hcmem
        rwa [List.enum_map_snd] at this
      refine ⟨⟨fun hcontra => ?_, fun hall => ?_⟩,
        fun _ => ⟨q, hrun, gch, hgchG, hgchLen, hid, ?_, ?_⟩⟩
      · rw [hrun] at hcontra
        exact Except.noConfusion hcontra
      · exact absurd hgchLen (not_le.2 (hall gch hgchG))
      · rw [hprompt]
        exact List.mem_map_of_mem VocabEntry.esperanto hc2
      · intro o ho
        obtain ⟨p, hp, hpe⟩ := hopts o ho
        have hp2 : p.2 ∈ gch.entries := by
          have := List.mem_map_of_mem Prod.snd hp
          rwa [List.enum_map_snd] at this
        exact hpe ▸ List.mem_map_of_mem mkOptionDict hp2

/-- Witness for the amended C10 statement at a concrete one-group input. -/
theorem build_question_amended_witness :
    (1:ℤ) ≤ 2 ∧ (1:ℤ) ≤ 4 ∧
    ((build_question [gQ] zeroRng 2 4 = .error .valueError ↔
      ∀ g ∈ [gQ], (g.entries.length : ℤ) < 2) ∧
    ((∃ g ∈ [gQ], (2:ℤ) ≤ (g.entries.length : ℤ)) →
      ∃ q, build_question [gQ] zeroRng 2 4 = .ok q ∧
        ∃ g ∈ [gQ], (2:ℤ) ≤ (g.entries.length : ℤ) ∧
          q.group_id = g.id ∧
          q.prompt ∈ g.entries.map VocabEntry.esperanto ∧
          ∀ o ∈ q.options, o ∈ g.entries.map mkOptionDict)) :=
  ⟨by decide, by decide,
    build_question_amended [gQ] zeroRng 2 4 (by decide) (by decide)⟩

/-!  Size lower-bound analysis (C3): the `(pos, stages)` key of every group
identifies the one partitioner call that produced it, so the number of groups
sharing a key is the length of that call's size list. -/

theorem flatMap_singleton_eq_map {α β : Type} (f : α → β) :
    ∀ l : List α, l.flatMap (fun a => [f a]) = l.map f
  | [] => rfl
  | a :: t => by simp [flatMap_singleton_eq_map f t]

theorem even_chunks_length (items : List VocabEntry) (parts : ℕ)
    (hp : parts ≠ 0) : (even_chunks items parts).length = parts := by
  unfold even_chunks
  rw [if_neg hp, chunksBySizes_length]
  simp

theorem build_sublevels_fst_ne (bs : Buckets) :
    ∀ lw ∈ build_sublevels bs, lw.1 ≠ [] := by
  intro lw hlw
  unfold build_sublevels at hlw
  simp only [List.mem_flatMap] at hlw
  obtain ⟨sp, _, hmem⟩ := hlw
  simp only [List.mem_filterMap] at hmem
  obtain ⟨p, _, hp⟩ := hmem
  by_cases hc : p.2.isEmpty
  · rw [if_pos hc] at hp
    cases hp
  · rw [if_neg hc] at hp
    have hinj := Option.some.inj hp
    rw [← hinj]
    simp

theorem stage_labels_sublist (stage : String) :
    ∀ (chunks : List (List VocabEntry)) (n : ℕ),
    (((((List.enumFrom n chunks)).filterMap
      (fun p => if p.2.isEmpty then none
                else some ([sublevel_label stage (p.1 + 1)], p.2))).map
      Prod.fst).flatten).Sublist
      ((List.range' n chunks.length).map (fun i => sublevel_label stage (i + 1)))
  | [], n => by simp
  | c :: cs, n => by
    have hr : List.range' n (c :: cs).length =
        n :: List.range' (n + 1) cs.length := rfl
    rw [hr, List.map_cons]
    by_cases hc : c.isEmpty
    · have hceq : c = [] := List.isEmpty_iff.1 hc
      have hstep : ((List.enumFrom n (c :: cs)).filterMap
          (fun p => if p.2.isEmpty then none
                    else some ([sublevel_label stage (p.1 + 1)], p.2))) =
          ((List.enumFrom (n + 1) cs).filterMap
          (fun p => if p.2.isEmpty then none
                    else some ([sublevel_label stage (p.1 + 1)], p.2))) := by
        simp [List.enumFrom_cons, List.filterMap_cons, hceq]
      rw [hstep]
      exact List.Sublist.cons _ (stage_labels_sublist stage cs (n + 1))
    · have hcne : c ≠ [] := fun hh => hc (by simp [hh])
      have hstep : ((List.enumFrom n (c :: cs)).filterMap
          (fun p => if p.2.isEmpty then none
                    else some ([sublevel_label stage (p.1 + 1)], p.2))) =
          ([sublevel_label stage (n + 1)], c) ::
          ((List.enumFrom (n + 1) cs).filterMap
          (fun p => if p.2.isEmpty then none
                    else some ([sublevel_label stage (p.1 + 1)], p.2))) := by
        simp [List.enumFrom_cons, List.filterMap_cons, hcne]
      rw [hstep, List.map_cons, List.flatten_cons, List.singleton_append]
      exact List.Sublist.cons₂ _ (stage_labels_sublist stage cs (n + 1))

theorem build_sublevels_fst_sublist (bs : Buckets) :
    (((build_sublevels bs).map Prod.fst).flatten).Sublist fixed12 := by
  unfold build_sublevels
  simp only [List.flatMap_cons, List.flatMap_nil, List.map_append,
    List.flatten_append, List.append_nil]
  have hb := stage_labels_sublist "beginner" (even_chunks bs.beginner 3) 0
  have hi := stage_labels_sublist "intermediate" (even_chunks bs.intermediate 3) 0
  have ha := stage_labels_sublist "advanced" (even_chunks bs.advanced 6) 0
  rw [even_chunks_length _ 3 (by norm_num)] at hb hi
  rw [even_chunks_length _ 6 (by norm_num)] at ha
  have h12 : fixed12 =
      ((List.range' 0 3).map (fun i => sublevel_label "beginner" (i + 1))) ++
      (((List.range' 0 3).map (fun i => sublevel_label "intermediate" (i + 1))) ++
       ((List.range' 0 6).map (fun i => sublevel_label "advanced" (i + 1)))) := by
    decide
  rw [h12, List.enum_eq_enumFrom, List.enum_eq_enumFrom, List.enum_eq_enumFrom]
  exact hb.append (hi.append ha)

theorem nodup_of_flatten_nodup {α : Type} :
    ∀ (ls : List (List α)), ls.flatten.Nodup → (∀ l ∈ ls, l ≠ []) → ls.Nodup
  | [], _, _ => List.nodup_nil
  | l :: ls, h, hne => by
    rw [List.flatten_cons] at h
    refine List.nodup_cons.2 ⟨?_, nodup_of_flatten_nodup ls h.of_append_right
      (fun x hx => hne x (List.mem_cons_of_mem _ hx))⟩
    intro hmem
    obtain ⟨a, ha⟩ := List.exists_mem_of_ne_nil l (hne l (List.mem_cons_self _ _))
    exact (List.disjoint_of_nodup_append h) ha (List.mem_flatten.2 ⟨l, hmem, ha⟩)

theorem merged_fst_nodup (items : List VocabEntry) :
    ((merge_small_sublevels (build_sublevels (split_by_level items))).map
      Prod.fst).Nodup := by
  apply nodup_of_flatten_nodup
  · rw [merge_small_sublevels_fst_flatten]
    exact List.Nodup.sublist (build_sublevels_fst_sublist _) (by decide)
  · intro l hl
    obtain ⟨lw, hlw, hfst⟩ := List.mem_map.1 hl
    rw [← hfst]
    exact merge_small_sublevels_fst_ne _ (build_sublevels_fst_ne _) lw hlw

theorem nodup_flatMap_keyed {α β κ : Type} (K : α → κ) (f : α → List β)
    (pk : β → κ) (hkey : ∀ a : α, ∀ x ∈ f a, pk x = K a) :
    ∀ l : List α, (l.map K).Nodup → (∀ a ∈ l, (f a).Nodup) →
      (l.flatMap f).Nodup
  | [], _, _ => by simp
  | a :: t, hk, hall => by
    rw [List.flatMap_cons]
    simp only [List.map_cons, List.nodup_cons] at hk
    refine List.Nodup.append (hall a (List.mem_cons_self _ _))
      (nodup_flatMap_keyed K f pk hkey t hk.2
        (fun b hb => hall b (List.mem_cons_of_mem _ hb))) ?_
    intro x hx1 hx2
    rw [List.mem_flatMap] at hx2
    obtain ⟨b, hb, hxb⟩ := hx2
    have h1 : pk x = K a := hkey a x hx1
    have h2 : pk x = K b := hkey b x hxb
    refine hk.1 ?_
    rw [h1.symm.trans h2]
    exact List.mem_map_of_mem K hb

theorem pipelineCells_keys_nodup (entries : List VocabEntry) :
    ((pipelineCells entries).map Prod.fst).Nodup := by
  unfold pipelineCells
  rw [List.map_flatMap]
  have heq : ∀ pb : String × List VocabEntry,
      List.map Prod.fst ((merge_small_sublevels (build_sublevels
        (split_by_level pb.2))).map (fun lw => ((pb.1, lw.1), lw.2.length))) =
      (merge_small_sublevels (build_sublevels (split_by_level pb.2))).map
        (fun lw => (pb.1, lw.1)) := by
    intro pb
    rw [List.map_map]
    rfl
  simp only [heq]
  refine nodup_flatMap_keyed Prod.fst
    (fun pb => (merge_small_sublevels (build_sublevels (split_by_level pb.2))).map
      (fun lw => (pb.1, lw.1)))
    Prod.fst
    (fun pb x hx => ?_)
    (group_by_pos entries) (group_by_pos_spec entries).1
    (fun pb _ => ?_)
  · obtain ⟨lw, _, hlw⟩ := List.mem_map.1 hx
    rw [← hlw]
  · show (List.map (fun lw => (pb.1, lw.1))
      (merge_small_sublevels (build_sublevels (split_by_level pb.2)))).Nodup
    have hnd := merged_fst_nodup pb.2
    have hcomp : (fun lw : List String × List VocabEntry => (pb.1, lw.1)) =
        (Prod.mk pb.1) ∘ Prod.fst := rfl
    rw [hcomp, ← List.map_map]
    refine List.Nodup.map ?_ hnd
    intro a b hab
    exact congrArg Prod.snd hab

theorem countP_cells_zero (k : String × List String) :
    ∀ cells : List ((String × List String) × ℕ),
      (∀ c2 ∈ cells, c2.1 ≠ k) →
      ((cells.flatMap (fun c2 => (group_sizes_of c2.2).map
        (fun s => (c2.1, s)))).countP (fun p => p.1 = k)) = 0
  | [], _ => rfl
  | c2 :: t, hne => by
    rw [List.flatMap_cons, List.countP_append, List.countP_map]
    rw [countP_cells_zero k t (fun x hx => hne x (List.mem_cons_of_mem _ hx))]
    have hz : List.countP ((fun p : (String × List String) × ℕ => p.1 = k) ∘
        (fun s => (c2.1, s))) (group_sizes_of c2.2) = 0 := by
      rw [List.countP_eq_zero]
      intro a _
      simp only [Function.comp_apply, decide_eq_true_eq]
      exact hne c2 (List.mem_cons_self _ _)
    rw [hz]

theorem countP_cells (k : String × List String) :
    ∀ cells : List ((String × List String) × ℕ),
      ((cells.map Prod.fst).Nodup) →
      ∀ c ∈ cells, c.1 = k →
      ((cells.flatMap (fun c2 => (group_sizes_of c2.2).map
        (fun s => (c2.1, s)))).countP (fun p => p.1 = k)) =
        (group_sizes_of c.2).length
  | [], _, c, hc, _ => by simp at hc
  | c2 :: t, hnd, c, hc, hck => by
    simp only [List.map_cons, List.nodup_cons] at hnd
    rw [List.flatMap_cons, List.countP_append, List.countP_map]
    rcases List.mem_cons.1 hc with h | h
    · subst h
      have hfull : List.countP ((fun p : (String × List String) × ℕ => p.1 = k) ∘
          (fun s => (c.1, s))) (group_sizes_of c.2) =
          (group_sizes_of c.2).length := by
        rw [List.countP_eq_length]
        intro a _
        simp only [Function.comp_apply, decide_eq_true_eq]
        exact hck
      have hz := countP_cells_zero k t (fun x hx he => hnd.1 (by
        have hxm : x.1 ∈ t.map Prod.fst := List.mem_map_of_mem Prod.fst hx
        rwa [he, ← hck] at hxm))
      rw [hfull, hz]
      omega
    · have hkne : c2.1 ≠ k := by
        intro he
        refine hnd.1 ?_
        rw [he, ← hck]
        exact List.mem_map_of_mem Prod.fst h
      have hz : List.countP ((fun p : (String × List String) × ℕ => p.1 = k) ∘
          (fun s => (c2.1, s))) (group_sizes_of c2.2) = 0 := by
        rw [List.countP_eq_zero]
        intro a _
        simp only [Function.comp_apply, decide_eq_true_eq]
        exact hkne
      rw [hz, countP_cells k t hnd.2 c h hck]
      omega

theorem split_into_groups_keySize (labels : List String)
    (words : List VocabEntry) (pos : String) (r : Rng) :
    (split_into_groups labels words pos r).1.flatMap (fun g => [keySize g]) =
      (group_sizes_of words.length).map (fun s => ((pos, labels), s)) := by
  rw [flatMap_singleton_eq_map]
  have hfields := split_into_groups_fields labels words pos r
  have hmk : (split_into_groups labels words pos r).1.map keySize =
      ((split_into_groups labels words pos r).1.map Group.size).map
        (fun s => ((pos, labels), s)) := by
    rw [List.map_map]
    refine List.map_congr_left ?_
    intro g hg
    obtain ⟨h1, h2, _⟩ := hfields g hg
    simp [keySize, h1, h2]
  rw [hmk, split_into_groups_map_size]

theorem pipelineKeySizes_eq (entries : List VocabEntry) :
    pipelineKeySizes entries =
    ((group_by_pos entries).map (fun pb =>
      (((merge_small_sublevels (build_sublevels (split_by_level pb.2))).map
        (fun lw => (group_sizes_of lw.2.length).map
          (fun s => ((pb.1, lw.1), s)))).flatten))).flatten := by
  unfold pipelineKeySizes pipelineCells
  have hcell : ∀ pb : String × List VocabEntry,
      (((merge_small_sublevels (build_sublevels (split_by_level pb.2))).map
        (fun lw => ((pb.1, lw.1), lw.2.length))).flatMap
        (fun c => (group_sizes_of c.2).map (fun s => (c.1, s)))) =
      (((merge_small_sublevels (build_sublevels (split_by_level pb.2))).map
        (fun lw => (group_sizes_of lw.2.length).map
          (fun s => ((pb.1, lw.1), s)))).flatten) := by
    intro pb
    generalize (merge_small_sublevels (build_sublevels (split_by_level pb.2))) = ms
    induction ms with
    | nil => rfl
    | cons lw t2 ih2 =>
      simp only [List.map_cons, List.flatMap_cons, List.flatten_cons, ih2]
  generalize group_by_pos entries = pbs
  induction pbs with
  | nil => rfl
  | cons pb t ih =>
    rw [List.flatMap_cons, List.flatMap_append, List.map_cons, List.flatten_cons,
      hcell pb, ih]

set_option maxHeartbeats 1600000 in
theorem build_groups_keySizes_perm (rows : List RawRow) (r : Rng)
    (fn : Option (String → String)) (gs : List Group)
    (entries : List VocabEntry)
    (hload : load_vocab rows fn = .ok entries)
    (h : build_groups rows r fn = .ok gs) :
    (gs.map keySize).Perm (pipelineKeySizes entries) := by
  rw [build_groups_fold_of_ok rows r fn gs entries hload h]
  have hU : ∀ (pb : String × List VocabEntry) (acc : List Group × Rng),
      (((merge_small_sublevels (build_sublevels (split_by_level pb.2))).foldl
        (fun acc2 lw =>
          let (gs2, r2) := split_into_groups lw.1 lw.2 pb.1 acc2.2
          (acc2.1 ++ gs2, r2)) acc).1.flatMap
        (fun g => [keySize g])).Perm
      (acc.1.flatMap (fun g => [keySize g]) ++
        (((merge_small_sublevels (build_sublevels (split_by_level pb.2))).map
          (fun lw => (group_sizes_of lw.2.length).map
            (fun s => ((pb.1, lw.1), s)))).flatten)) := by
    intro pb acc
    exact bucket_fold_perm _ pb.1
      (fun lw => (group_sizes_of lw.2.length).map (fun s => ((pb.1, lw.1), s)))
      (fun lw r2 => by
        rw [split_into_groups_keySize lw.1 lw.2 pb.1 r2])
      _ acc
  have hmain := pos_fold_perm (fun g => [keySize g])
    (fun pb => (((merge_small_sublevels
        (build_sublevels (split_by_level pb.2))).map
      (fun lw => (group_sizes_of lw.2.length).map
        (fun s => ((pb.1, lw.1), s)))).flatten))
    hU (group_by_pos entries) (([] : List Group), r)
  rw [show ((([] : List Group), r)).1 = ([] : List Group) from rfl,
    List.flatMap_nil, List.nil_append, flatMap_singleton_eq_map] at hmain
  rw [pipelineKeySizes_eq]
  exact hmain

/-- C3 amended: every group produced by `build_groups` has size at least 20,
or is the sole group of its `(pos, stages)` combination, or is one of exactly
two groups of its combination (the 31..39 halving case), in which case its
size is still at least 15. -/
theorem build_groups_size_lower_bound_amended (rows : List RawRow) (r : Rng)
    (fn : Option (String → String)) (gs : List Group)
    (h : build_groups rows r fn = .ok gs) :
    ∀ g ∈ gs, 20 ≤ g.size ∨
      (gs.filter (fun g2 => (g2.pos, g2.stages) = (g.pos, g.stages))).length = 1 ∨
      ((gs.filter
          (fun g2 => (g2.pos, g2.stages) = (g.pos, g.stages))).length = 2 ∧
        15 ≤ g.size) := by
  cases hload : load_vocab rows fn with
  | error e =>
    exfalso
    unfold build_groups at h
    rw [hload] at h
    cases h
  | ok entries =>
    have hperm := build_groups_keySizes_perm rows r fn gs entries hload h
    have hnd := pipelineCells_keys_nodup entries
    intro g hg
    have hmem : keySize g ∈ pipelineKeySizes entries :=
      hperm.subset (List.mem_map_of_mem keySize hg)
    unfold pipelineKeySizes at hmem
    rw [List.mem_flatMap] at hmem
    obtain ⟨c, hc, hgc⟩ := hmem
    rw [List.mem_map] at hgc
    obtain ⟨s, hs, hseq⟩ := hgc
    have hkey : c.1 = (g.pos, g.stages) := congrArg Prod.fst hseq
    have hsz : s = g.size := congrArg Prod.snd hseq
    have hcnt : (gs.filter
        (fun g2 => (g2.pos, g2.stages) = (g.pos, g.stages))).length =
        (group_sizes_of c.2).length := by
      have hstep1 : (gs.filter
          (fun g2 => (g2.pos, g2.stages) = (g.pos, g.stages))).length =
          List.countP (fun p => p.1 = (g.pos, g.stages)) (gs.map keySize) := by
        rw [List.countP_map]
        exact (List.countP_eq_length_filter _ _).symm
      rw [hstep1, List.Perm.countP_eq _ hperm]
      unfold pipelineKeySizes
      rw [← hkey]
      exact countP_cells c.1 (pipelineCells entries) hnd c hc rfl
    rw [hsz] at hs
    by_cases h1 : c.2 < 20
    · right; left
      rw [hcnt]
      simp [group_sizes_of, h1]
    by_cases h2 : c.2 ≤ 30
    · left
      unfold group_sizes_of at hs
      rw [if_neg h1, if_pos h2] at hs
      simp only [List.mem_singleton] at hs
      omega
    by_cases h3 : 31 ≤ c.2 ∧ c.2 ≤ 39
    · right; right
      unfold group_sizes_of at hs
      rw [if_neg h1, if_neg h2, if_pos h3] at hs
      constructor
      · rw [hcnt]
        unfold group_sizes_of
        rw [if_neg h1, if_neg h2, if_pos h3]
        rfl
      · rcases List.mem_cons.1 hs with h4 | h4
        · omega
        · have h5 := List.mem_singleton.1 h4
          omega
    · left
      have h40 : 40 ≤ c.2 := by omega
      have := (group_sizes_of_mem_large c.2 h40 g.size hs).1
      omega

set_option maxRecDepth 40000 in
/-- C3 counterexample: 31 nouns of one level end up in a single merged
sub-level of 31 words, which the partitioner halves into groups of 15 and 16 —
two groups of the same `(pos, stages)` combination, both below 20.  This
refutes the claim that a group under 20 is the sole group of its
combination. -/
theorem build_groups_size_counterexample :
    ∃ gs, build_groups rows31 zeroRng none = .ok gs ∧
      ∃ g ∈ gs, g.size < 20 ∧
        2 ≤ (gs.filter
          (fun g2 => (g2.pos, g2.stages) = (g.pos, g.stages))).length := by
  refine ⟨(build_groups rows31 zeroRng none).toOption.getD [], by decide⟩

/-- Witness for the amended C3 bound at a concrete input. -/
theorem build_groups_size_lower_bound_amended_witness :
    (build_groups rows2 zeroRng none =
      .ok ((build_groups rows2 zeroRng none).toOption.getD [])) ∧
    ∀ g ∈ (build_groups rows2 zeroRng none).toOption.getD [],
      20 ≤ g.size ∨
      (((build_groups rows2 zeroRng none).toOption.getD []).filter
        (fun g2 => (g2.pos, g2.stages) = (g.pos, g.stages))).length = 1 ∨
      ((((build_groups rows2 zeroRng none).toOption.getD []).filter
        (fun g2 => (g2.pos, g2.stages) = (g.pos, g.stages))).length = 2 ∧
        15 ≤ g.size) :=
  ⟨by decide, build_groups_size_lower_bound_amended rows2 zeroRng none _ (by decide)⟩

end Vocab
